import Mathlib

set_option maxRecDepth 1000000

/-! Verification development for the PairMap `MapGenerator`
(`src/pairmap/map_generator.py`).  The Python class is shallowly embedded:
an undirected simple graph is a finite node set together with a finite set
of normalized edges, scores are exact rationals, and fallible operations
(`raise Exception(...)`) return `Except`.  Edge attribute dictionaries
(`score`, `found_path`) are created once in `make_graph` /
`generate_initial_graph` and are re-inserted verbatim on every rollback, so
an edge's attributes are a fixed function of its endpoints (given the score
matrix and the found path); the embedding materializes them through
`make_graph` (where the rounded score is stored) and threads the attribute
bundles of a chunk (`data_chunk`) as explicit lists, exactly as the Python
code passes them around. -/

namespace PairMap

/-- Error kinds of the generator, parameterized by the reduction stage that
observed the problem (the code raises bare `Exception`s with corresponding
messages). -/
inductive MapErr where
  | noPathFound
  | invalidReachable
  | invalidCycle
  | invalidMain
  | invalidInitial
  deriving DecidableEq, Repr

/-- Normalized unordered pair: endpoints in ascending order.  `networkx`
stores an undirected edge once; the code materializes edges with the smaller
index first (`itertools.combinations`, and the explicit swap when
`found_links` is built in `find_optimal_path`). -/
def normPair (u v : ℕ) : ℕ × ℕ := if u ≤ v then (u, v) else (v, u)

/-- Round half to even, the semantics of `np.round` on exact decimal inputs. -/
def roundHalfEven (x : ℚ) : ℤ :=
  let n := ⌊x⌋
  let f := x - n
  if f < 1/2 then n else if 1/2 < f then n + 1 else if Even n then n else n + 1

/-- Rounding to two decimal places: `np.round(score, decimals=2)`, idealized
over exact rationals (the binary float64 representation noise of numpy is
out of scope of this embedding). -/
def round2 (q : ℚ) : ℚ := (roundHalfEven (100 * q) : ℚ) / 100

/-- Attribute bundle of one edge: the dictionary
`{score: ..., found_path: ...}` stored on graph edges by
`generate_initial_graph`. -/
structure EdgeData where
  score : ℚ
  found_path : Bool
  deriving DecidableEq, Repr

/-- Configuration of `MapGenerator.__init__`: the fields consulted by the
pruning pipeline.  `jobs` and `verbose` only affect the external score
computation and diagnostics, and the rough-search parameters only produce an
advisory print in `find_optimal_path`; they are omitted.  `m` is the score
matrix (the accepted `custum_score_matrix`) viewed as a function. -/
structure Config where
  N : ℕ
  m : ℕ → ℕ → ℚ
  maxPathLength : ℕ
  cycleLength : ℕ
  maxOptimalPathLength : ℕ
  minScoreThreshold : ℚ
  chunkScale : ℕ
  source : ℕ
  target : ℕ

/-- Weighted graph as built by `make_graph`: nodes plus edges carrying their
materialized `score` attribute.  Node labels are the fixed map
`i ↦ intermediate_names[i]` and are not represented. -/
structure WGraph where
  nodes : Finset ℕ
  edata : Finset ((ℕ × ℕ) × ℚ)
  deriving DecidableEq

/-- Empty `nx.Graph()`. -/
def WGraph.empty : WGraph := ⟨∅, ∅⟩

/-- `graph.add_node(i)`. -/
def addNode (g : WGraph) (i : ℕ) : WGraph := ⟨insert i g.nodes, g.edata⟩

/-- `graph.add_edge(u, v, score=s)`: `networkx` inserts missing endpoints as
nodes; re-adding an existing edge overwrites its attributes (here always
with the identical score, so an idempotent insert). -/
def addEdgeW (g : WGraph) (u v : ℕ) (s : ℚ) : WGraph :=
  ⟨insert u (insert v g.nodes), insert ((u, v), s) g.edata⟩

/-- All unordered pairs `itertools.combinations(range(N), 2)` in the order
Python enumerates them: for each `u` ascending, the partners `v` with
`u < v < N` ascending. -/
def combos (N : ℕ) : List (ℕ × ℕ) :=
  (List.range N).flatMap
    (fun u => ((List.range N).filter (fun v => decide (u < v))).map (fun v => (u, v)))

/-- One run of the inner edge loop of `make_graph` (the loop body under a
fixed outer node `i` is independent of `i`; Python executes this identical
pass once per node). -/
def edgePass (m : ℕ → ℕ → ℚ) (minScore : ℚ) (N : ℕ) (g : WGraph) : WGraph :=
  (combos N).foldl
    (fun g e =>
      if minScore ≤ round2 (m e.1 e.2) then addEdgeW g e.1 e.2 (round2 (m e.1 e.2)) else g) g

/-- `MapGenerator.make_graph(min_score)`: for each `i` in `range(N)` add the
labeled node `i` and then re-run the full pairwise edge pass, adding each
qualifying unordered pair `(u, v)` with `score = round(m[u][v], 2)` whenever
that rounded score is at least `min_score`. -/
def make_graph (m : ℕ → ℕ → ℚ) (minScore : ℚ) (N : ℕ) : WGraph :=
  (List.range N).foldl (fun g i => edgePass m minScore N (addNode g i)) WGraph.empty

/-- Qualifying edge set with materialized rounded scores (the edge data that
a single pass over all unordered pairs produces). -/
def qualData (m : ℕ → ℕ → ℚ) (minScore : ℚ) (N : ℕ) : Finset ((ℕ × ℕ) × ℚ) :=
  (((combos N).filter (fun e => decide (minScore ≤ round2 (m e.1 e.2)))).map
    (fun e => (e, round2 (m e.1 e.2)))).toFinset

/-- Straightforward single-pass construction of claim C10: one labeled node
per index in `[0, N)`, then each unordered pair examined exactly once,
adding the edge with its rounded score when that score reaches the
threshold. -/
def single_pass_graph (m : ℕ → ℕ → ℚ) (minScore : ℚ) (N : ℕ) : WGraph :=
  ⟨Finset.range N, qualData m minScore N⟩

/-- Pruning-phase graph: node set plus normalized edge set.  Edge attributes
are not stored at this level: by `make_graph_edata` the attribute bundle of
an edge is the fixed function `dataOf` of its endpoints, and every rollback
re-inserts exactly the bundle the edge carried (see the module comment). -/
structure PGraph where
  nodes : Finset ℕ
  edges : Finset (ℕ × ℕ)
  deriving DecidableEq

/-- Forget the materialized scores of a weighted graph. -/
def WGraph.toP (g : WGraph) : PGraph := ⟨g.nodes, g.edata.image Prod.fst⟩

/-- Well-formedness maintained by the pipeline: edges are normalized and
their endpoints are nodes. -/
def PGraph.WF (g : PGraph) : Prop :=
  ∀ e ∈ g.edges, e.1 ∈ g.nodes ∧ e.2 ∈ g.nodes ∧ e.1 < e.2

/-- `graph.add_edge(u, v, **d)` at the edge-set level: `networkx` inserts
missing endpoints as nodes. -/
def add_edge (g : PGraph) (u v : ℕ) : PGraph :=
  ⟨insert u (insert v g.nodes), insert (normPair u v) g.edges⟩

/-- `graph.remove_edge(u, v)`; nodes are kept. -/
def remove_edge (g : PGraph) (e : ℕ × ℕ) : PGraph :=
  ⟨g.nodes, g.edges.erase (normPair e.1 e.2)⟩

/-- `graph.remove_edges_from(edge_chunk)`; absent edges are ignored. -/
def remove_edges_from (g : PGraph) (l : List (ℕ × ℕ)) : PGraph :=
  l.foldl remove_edge g

/-- Truthiness of `graph.get_edge_data(u, v)`: edge presence (the attribute
dictionaries are never empty). -/
def present (g : PGraph) (e : ℕ × ℕ) : Bool := decide (normPair e.1 e.2 ∈ g.edges)

/-- `graph.subgraph(S)`: induced subgraph on `S`; nodes of `S` outside the
graph are ignored by `networkx`.  The `.copy()` calls of the code produce
independent graphs and are identities in this embedding. -/
def induced (g : PGraph) (S : Finset ℕ) : PGraph :=
  ⟨g.nodes ∩ S, g.edges.filter (fun e => e.1 ∈ S ∧ e.2 ∈ S)⟩

/-- Lexicographic order on normalized edges: the enumeration order of
`graph.edges` in every graph of the pipeline (edges are first inserted in
`itertools.combinations` order, and subgraph views and copies preserve
insertion order). -/
def pairLE (a b : ℕ × ℕ) : Prop := a.1 < b.1 ∨ (a.1 = b.1 ∧ a.2 ≤ b.2)

instance : DecidableRel pairLE := fun a b => by
  unfold pairLE
  infer_instance

instance : IsTrans (ℕ × ℕ) pairLE :=
  ⟨by
    intro a b c hab hbc
    unfold pairLE at *
    omega⟩

instance : IsAntisymm (ℕ × ℕ) pairLE :=
  ⟨by
    intro a b hab hba
    unfold pairLE at *
    have h1 : a.1 = b.1 := by omega
    have h2 : a.2 = b.2 := by omega
    exact Prod.ext h1 h2⟩

instance : IsTotal (ℕ × ℕ) pairLE :=
  ⟨by
    intro a b
    unfold pairLE
    omega⟩

/-- Ascending enumeration of a multiset of naturals (insertion sort is
structurally recursive, hence kernel-computable, unlike `Finset.sort`). -/
def sortNatList (s : Multiset ℕ) : List ℕ :=
  Quot.liftOn s (fun l => l.insertionSort (· ≤ ·))
    (fun a b hab =>
      List.eq_of_perm_of_sorted
        (((List.perm_insertionSort _ a).trans hab).trans
          (List.perm_insertionSort _ b).symm)
        (List.sorted_insertionSort _ a) (List.sorted_insertionSort _ b))

/-- Lexicographic enumeration of a multiset of normalized edges. -/
def sortPairList (s : Multiset (ℕ × ℕ)) : List (ℕ × ℕ) :=
  Quot.liftOn s (fun l => l.insertionSort pairLE)
    (fun a b hab =>
      List.eq_of_perm_of_sorted
        (((List.perm_insertionSort _ a).trans hab).trans
          (List.perm_insertionSort _ b).symm)
        (List.sorted_insertionSort _ a) (List.sorted_insertionSort _ b))

/-- Neighbor list of `u` in ascending order: adjacency dictionaries of the
graphs this pipeline builds list neighbors ascending (edges are inserted in
`itertools.combinations` order on the first outer pass of `make_graph`, and
subgraph views and copies preserve insertion order). -/
def adjList (g : PGraph) (u : ℕ) : List ℕ :=
  (sortNatList g.nodes.val).filter (fun v => present g (u, v))

/-- Depth-first enumeration of the simple extensions of the running path `P`
(ending at `u`) that reach `t`, visiting neighbors in ascending order and
descending only while the running path has fewer than `cutoff` nodes.  This
is the observable behavior of `nx.all_simple_paths(g, s, t, cutoff=cutoff)`
for `s ≠ t` and `cutoff ≥ 1`: all simple `s`-`t` paths with at most `cutoff`
edges, in depth-first order.  The structural `fuel` makes the definition
kernel-computable; the initial fuel `cutoff` is never exhausted because the
running path grows with every descent (see `mem_spAux`). -/
def spAux (g : PGraph) (t cutoff : ℕ) : ℕ → List ℕ → ℕ → List (List ℕ)
  | fuel, P, u =>
    (adjList g u).flatMap fun w =>
      if w ∈ P then []
      else if w = t then [P ++ [t]]
      else if P.length < cutoff then
        match fuel with
        | 0 => []
        | fuel + 1 => spAux g t cutoff fuel (P ++ [w]) w
      else []

/-- `nx.all_simple_paths(graph, source, target, cutoff=cutoff)` as a list. -/
def all_simple_paths (g : PGraph) (s t cutoff : ℕ) : List (List ℕ) :=
  spAux g t cutoff cutoff [s] s

/-- Bounded simple path predicate: a simple `s`-`t` path with at least one
and at most `cutoff` edges, every consecutive pair being an edge. -/
def IsBoundedPath (g : PGraph) (s t cutoff : ℕ) (p : List ℕ) : Prop :=
  2 ≤ p.length ∧ p.length ≤ cutoff + 1 ∧ p.head? = some s ∧ p.getLast? = some t ∧
    p.Nodup ∧ List.Chain' (fun a b => normPair a b ∈ g.edges) p

instance (g : PGraph) (s t cutoff : ℕ) (p : List ℕ) :
    Decidable (IsBoundedPath g s t cutoff p) := by
  unfold IsBoundedPath
  infer_instance

/-- Runtime context of the generator once `find_optimal_path` has set
`self.found_path` and `self.found_links` (the constructor initializes them
to `[source, target]` and `[(source, target)]`). -/
structure RunCtx where
  cfg : Config
  found_path : List ℕ
  found_links : List (ℕ × ℕ)

/-- Score attribute of an edge: the rounded matrix entry at the normalized
endpoints, exactly what `make_graph` materializes (`make_graph_edata`). -/
def scoreOf (cfg : Config) (e : ℕ × ℕ) : ℚ :=
  round2 (cfg.m (normPair e.1 e.2).1 (normPair e.1 e.2).2)

/-- Attribute bundle of an edge of the initial graph as materialized by
`generate_initial_graph`: the rounded score (`make_graph_edata`) and the
`found_path` flag, set exactly on the found links.  Every rollback
re-inserts the dictionary the edge carried (`add_edge(i, j, **d)`), so the
attributes of an edge are this fixed function of its endpoints. -/
def dataOf (rc : RunCtx) (e : ℕ × ℕ) : EdgeData :=
  ⟨scoreOf rc.cfg e, decide (normPair e.1 e.2 ∈ rc.found_links)⟩

/-- All sequences of a given length over the elements of `l`. -/
def seqsOfLen (l : List ℕ) : ℕ → List (List ℕ)
  | 0 => [[]]
  | n + 1 => l.flatMap (fun x => (seqsOfLen l n).map (x :: ·))

/-- Computable consecutive-adjacency check (`List.Chain'` as a recursive
boolean). -/
def chainB (f : ℕ → ℕ → Bool) : List ℕ → Bool
  | [] => true
  | [_] => true
  | a :: b :: tl => f a b && chainB f (b :: tl)

/-- Whether the list of nodes `c`, read cyclically, is a simple cycle of the
graph. -/
def isCycleList (g : PGraph) (c : List ℕ) : Bool :=
  decide (3 ≤ c.length) && decide c.Nodup &&
    chainB (fun a b => present g (a, b)) c &&
    (match c.getLast?, c.head? with
      | some x, some y => present g (x, y)
      | _, _ => false)

/-- `nx.simple_cycles(graph, length_bound=k)`: the simple cycles with at
most `k` nodes; in a simple undirected graph these have length `3..k`.
`networkx` yields each cycle once whereas this enumeration lists every
rotation and direction, but the pipeline only consumes node sets of cycles
(`get_cycled_nodes`, `get_cycle_subgraph`), for which the two listings are
extensionally equal. -/
def simple_cycles (g : PGraph) (k : ℕ) : List (List ℕ) :=
  (List.range (k + 1)).flatMap
    (fun n =>
      if 3 ≤ n then (seqsOfLen (sortNatList g.nodes.val) n).filter (isCycleList g) else [])

/-- `self.found_path[1:-1]`: the interior nodes of the found path. -/
def interior (path : List ℕ) : List ℕ := (path.drop 1).dropLast

/-- `MapGenerator.get_cycled_nodes`: nodes of bounded simple cycles that
contain at least one interior found-path node, intersected with the
found-path node set. -/
def get_cycled_nodes (rc : RunCtx) (g : PGraph) : Finset ℕ :=
  let cycles := simple_cycles g rc.cfg.cycleLength
  let uniq := cycles.foldl
    (fun acc c =>
      if c.any (fun x => decide (x ∈ interior rc.found_path)) then acc ∪ c.toFinset else acc) ∅
  rc.found_path.toFinset ∩ uniq

/-- One breadth step of reachability: add every node adjacent to the set. -/
def reachStep (g : PGraph) (S : Finset ℕ) : Finset ℕ :=
  S ∪ g.nodes.filter (fun v => ∃ u ∈ S, normPair u v ∈ g.edges)

/-- Nodes reachable from `s`: `g.nodes.card` breadth steps saturate every
component, so this is the connected component of `s` (for `s ∈ g.nodes`). -/
def reachSet (g : PGraph) (s : ℕ) : Finset ℕ := (reachStep g)^[g.nodes.card] {s}

/-- Modelled from the spec: `find_bridges` lives in `pairmap.utils`, which
is not under `src/`.  The spec defines the cycled edges as
`found_links \ bridges` where the bridges are the bridge set of the graph;
an edge is a bridge iff removing it disconnects its two endpoints. -/
def isBridge (g : PGraph) (e : ℕ × ℕ) : Prop :=
  normPair e.1 e.2 ∈ g.edges ∧ e.2 ∉ reachSet (remove_edge g e) e.1

instance (g : PGraph) (e : ℕ × ℕ) : Decidable (isBridge g e) := by
  unfold isBridge
  infer_instance

/-- `MapGenerator.get_cycled_edges`: the found links that are not bridges of
the graph. -/
def get_cycled_edges (rc : RunCtx) (g : PGraph) : Finset (ℕ × ℕ) :=
  rc.found_links.toFinset.filter (fun l => ¬ isBridge g l)

/-- The snapshot pair (`initialCycledNodesSet`, `initialCycledEdgesSet`)
captured in `build_map` and never reassigned afterwards. -/
structure Snapshots where
  cycNodes : Finset ℕ
  cycEdges : Finset (ℕ × ℕ)
  deriving DecidableEq

/-- `MapGenerator.check_node_cycle_covering`:
`initialCycledNodesSet.difference(cycled) == ∅`. -/
def check_node_cycle_covering (rc : RunCtx) (snap : Snapshots) (g : PGraph) : Bool :=
  decide (snap.cycNodes \ get_cycled_nodes rc g = ∅)

/-- `MapGenerator.check_edge_cycle_covering`:
`initialCycledEdgesSet.difference(cycled) == ∅`. -/
def check_edge_cycle_covering (rc : RunCtx) (snap : Snapshots) (g : PGraph) : Bool :=
  decide (snap.cycEdges \ get_cycled_edges rc g = ∅)

/-- `MapGenerator.check_constraints`: node covering, then (only if it held)
edge covering. -/
def check_constraints (rc : RunCtx) (snap : Snapshots) (g : PGraph) : Bool :=
  if check_node_cycle_covering rc snap g then check_edge_cycle_covering rc snap g else false

/-- Node set kept by `get_main_subgraph`: the component of `found_path[0]`. -/
def mainComponentSet (rc : RunCtx) (g : PGraph) : Finset ℕ :=
  reachSet g (rc.found_path.headD 0)

/-- `MapGenerator.get_main_subgraph`: the connected component containing
every found-path node.  Python scans `nx.connected_components` for the
first component containing them all; as components are disjoint and the
found path is nonempty, that component (if any) is the component of
`found_path[0]`. -/
def get_main_subgraph (rc : RunCtx) (g : PGraph) : Except MapErr PGraph :=
  if rc.found_path.all (fun x => decide (x ∈ (induced g (mainComponentSet rc g)).nodes))
  then .ok (induced g (mainComponentSet rc g))
  else .error .invalidMain

/-- Node set kept by `get_reachable_subgraph`: the found-path nodes together
with every node on a bounded simple source-target path. -/
def reachableNodesSet (rc : RunCtx) (g : PGraph) : Finset ℕ :=
  (all_simple_paths g rc.cfg.source rc.cfg.target rc.cfg.maxPathLength).foldl
    (fun acc p => acc ∪ p.toFinset) rc.found_path.toFinset

/-- `MapGenerator.get_reachable_subgraph`: induced subgraph on the union of
the found-path nodes with all nodes on a bounded simple source-target
path. -/
def get_reachable_subgraph (rc : RunCtx) (g : PGraph) : Except MapErr PGraph :=
  if rc.found_path.all (fun x => decide (x ∈ (induced g (reachableNodesSet rc g)).nodes))
  then .ok (induced g (reachableNodesSet rc g))
  else .error .invalidReachable

/-- Node set kept by `get_cycle_subgraph`: the found-path nodes together
with the nodes of every bounded simple cycle containing at least one
found-path node. -/
def cycleNodesSet (rc : RunCtx) (g : PGraph) : Finset ℕ :=
  (simple_cycles g rc.cfg.cycleLength).foldl
    (fun acc c =>
      if c.any (fun x => decide (x ∈ rc.found_path)) then acc ∪ c.toFinset else acc)
    rc.found_path.toFinset

/-- `MapGenerator.get_cycle_subgraph`: induced subgraph on the union of the
found-path nodes with the nodes of every bounded simple cycle containing at
least one found-path node. -/
def get_cycle_subgraph (rc : RunCtx) (g : PGraph) : Except MapErr PGraph :=
  if rc.found_path.all (fun x => decide (x ∈ (induced g (cycleNodesSet rc g)).nodes))
  then .ok (induced g (cycleNodesSet rc g))
  else .error .invalidCycle

/-- The reduction `reachable → cycle → main` applied after every chunk
removal and to the initial graph (each stage can raise, aborting the run). -/
def reduceAll (rc : RunCtx) (g : PGraph) : Except MapErr PGraph :=
  match get_reachable_subgraph rc g with
  | .error e => .error e
  | .ok ex1 =>
    match get_cycle_subgraph rc ex1 with
    | .error e => .error e
    | .ok ex2 => get_main_subgraph rc ex2

/-- `list(graph.edges(...))` in enumeration order (lexicographic, see
`pairLE`). -/
def edgeList (g : PGraph) : List (ℕ × ℕ) := sortPairList g.edges.val

/-- `self.scoresList`: the edge list sorted ascending by `score` with
Python's stable `list.sort` (ties keep enumeration order; insertion sort is
stable and any two stable sorts by the same key agree). -/
def sortedEdges (rc : RunCtx) (g : PGraph) : List (ℕ × ℕ) :=
  (edgeList g).insertionSort (fun a b => (dataOf rc a).score ≤ (dataOf rc b).score)

/-- Fuel-driven integer logarithm: `intLogAux b fuel n` is the number of
times `n` can be divided by `b` before dropping below `b` (for `2 ≤ b`). -/
def intLogAux (b : ℕ) : ℕ → ℕ → ℕ
  | 0, _ => 0
  | fuel + 1, n => if 2 ≤ b ∧ b ≤ n then intLogAux b fuel (n / b) + 1 else 0

/-- `int(np.log(n) / np.log(b))`, idealized to the exact floor logarithm
(float64 can underapproximate the quotient at exact powers, e.g.
`n = 1000, b = 10`, where Python computes 2 instead of 3; this only changes
the chunking granularity). -/
def intLog (b n : ℕ) : ℕ := intLogAux b n n

/-- Index of the first minimum of a list of rationals (`np.argmin`). -/
def argminList : List ℚ → ℕ
  | [] => 0
  | [_] => 0
  | x :: y :: tl =>
      if (y :: tl).getD (argminList (y :: tl)) 0 < x then argminList (y :: tl) + 1 else 0

/-- Reciprocal score-sum objective of one candidate path: the scores of its
consecutive edges (as stored on the graph), sorted ascending, reciprocals
summed (`np.sum(1/np.array(sorted(path_scores)))`; the sort does not change
the exact sum). -/
def pathRecipSum (cfg : Config) (p : List ℕ) : ℚ :=
  let scores := (p.zip p.tail).map (fun e => scoreOf cfg e)
  ((scores.insertionSort (· ≤ ·)).map (fun s => 1 / s)).sum

/-- `MapGenerator.find_optimal_path`.  The rough search only prints an
advisory diagnostic and is omitted.  Fails with `NoPathFound` when no
bounded simple source-target path exists in the graph at
`minScoreThreshold`; otherwise selects the candidate minimizing the
reciprocal score sum, `np.argmin` resolving ties to the first candidate in
DFS enumeration order. -/
def candidate_paths (cfg : Config) : List (List ℕ) :=
  all_simple_paths (make_graph cfg.m cfg.minScoreThreshold cfg.N).toP
    cfg.source cfg.target cfg.maxOptimalPathLength

def find_optimal_path (cfg : Config) : Except MapErr (List ℕ) :=
  if (candidate_paths cfg).isEmpty then .error .noPathFound
  else
    .ok ((candidate_paths cfg).getD
      (argminList ((candidate_paths cfg).map (pathRecipSum cfg))) [])

/-- `found_links`: consecutive pairs of the found path, each stored with
ascending endpoints. -/
def linksOfPath (p : List ℕ) : List (ℕ × ℕ) :=
  (p.zip p.tail).map (fun e => normPair e.1 e.2)

/-- Runtime context after `find_optimal_path` (falling back to the
constructor's initialization `[source, target]` when it fails; `build_map`
aborts before using the context in that case). -/
def rc_of (cfg : Config) : RunCtx :=
  let path := (find_optimal_path cfg).toOption.getD [cfg.source, cfg.target]
  ⟨cfg, path, linksOfPath path⟩

/-- `MapGenerator.generate_initial_graph`: the full graph at
`minScoreThreshold`.  The `found_path` attributes written here are the flag
of `dataOf` (writing them requires every found link to be an edge, which
holds for the path recorded by `find_optimal_path`). -/
def generate_initial_graph (rc : RunCtx) : PGraph :=
  (make_graph rc.cfg.m rc.cfg.minScoreThreshold rc.cfg.N).toP

/-- Rollback of `check_chunk`: re-insert the chunk edges with their
attribute bundles (`subgraph.add_edge(i, j, **d)`; the bundles are those of
`dataOf`, so only the edge set changes). -/
def restore_edges (g : PGraph) (echunk : List (ℕ × ℕ)) : PGraph :=
  echunk.foldl (fun g e => add_edge g e.1 e.2) g

/-- Removability of one attribute bundle:
`d['score'] < 1.0 and not d['found_path']`. -/
def removableB (d : EdgeData) : Bool := decide (d.score < 1) && !d.found_path

/-- `MapGenerator.check_chunk`: the atomic removal test.  A chunk whose
edges are all non-removable (`score == 1.0` or `found_path`) is accepted
without mutation; a mixed chunk is rejected without mutation; otherwise the
chunk is removed, the graph re-reduced (`reachable → cycle → main`), and
the reduction either adopted (acceptance) or the removal rolled back
(rejection).  Exceptions raised by the reduction primitives propagate
uncaught.  Note `all([]) = True` in Python, so the empty chunk takes the
removal branch. -/
def check_chunk (rc : RunCtx) (snap : Snapshots) (echunk : List (ℕ × ℕ))
    (dchunk : List EdgeData) (g : PGraph) : Except MapErr (Bool × PGraph) :=
  if ¬ (dchunk.map removableB).all (fun b => b) then
    if ¬ (dchunk.map removableB).any (fun b => b) then .ok (true, g)
    else .ok (false, g)
  else
    match reduceAll rc (remove_edges_from g echunk) with
    | .error err => .error err
    | .ok ex =>
      if ¬ rc.found_path.all (fun x => decide (x ∈ ex.nodes)) then
        .ok (false, restore_edges (remove_edges_from g echunk) echunk)
      else if ¬ check_constraints rc snap ex then
        .ok (false, restore_edges (remove_edges_from g echunk) echunk)
      else .ok (true, ex)

/-- Chunk-assembly loop (`while len(edge_chunk) < chunk_size and crt < len`):
walk the remaining `(edges, data)` lists in step, skipping edges absent
from `h`, until `size` live edges are collected; returns the collected
chunk with its data and the unconsumed remainders. -/
def collect (h : PGraph) : ℕ → List (ℕ × ℕ) → List EdgeData →
    List (ℕ × ℕ) × List EdgeData × List (ℕ × ℕ) × List EdgeData
  | 0, es, ds => ([], [], es, ds)
  | _ + 1, [], ds => ([], [], [], ds)
  | _ + 1, es, [] => ([], [], es, [])
  | size + 1, e :: es, d :: ds =>
      if present h e then
        let r := collect h size es ds
        (e :: r.1, d :: r.2.1, r.2.2.1, r.2.2.2)
      else collect h (size + 1) es ds
termination_by structural _ es _ => es

mutual

/-- `MapGenerator.chunk_process`: try to remove the chunk at once; on
rejection with `chunk_size == 1` report the edge unremovable; otherwise
split into sub-chunks of `max(chunk_size // chunkScale, 1)` live edges and
sweep them.  The liveness filters of the sweep consult the local variable
`subgraph = self.tmp_subgraph` captured at entry (`stale` here):
`self.tmp_subgraph` is rebound to a fresh object by every accepted
`check_chunk`, so those filters can consult an outdated graph; the
embedding freezes the captured graph at entry, which coincides with the
Python object up to the in-place removal of the first chunk accepted after
entry.  `fuel` is an artifact of the embedding (Python recursion
terminates for `chunkScale ≥ 2`); the theorems below hold for every fuel. -/
def chunk_process (rc : RunCtx) (snap : Snapshots) :
    ℕ → List (ℕ × ℕ) → List EdgeData → ℕ → PGraph → Except MapErr (Bool × PGraph)
  | 0, _, _, _, g => .ok (true, g)
  | fuel + 1, echunk, dchunk, size, g =>
      match check_chunk rc snap echunk dchunk g with
      | .error err => .error err
      | .ok r =>
        if r.1 then .ok (true, r.2)
        else if size == 1 then .ok (false, r.2)
        else sweep_chunks rc snap fuel g (max (size / rc.cfg.chunkScale) 1) echunk dchunk r.2

/-- Inner sweep loop of `chunk_process` (`while crt < len(edge_chunk)`),
including the bulk retry of the still-live remainder after a failed
sub-chunk (`edge_chunk_x`), which on success breaks out of the loop.  The
loop itself always reports success. -/
def sweep_chunks (rc : RunCtx) (snap : Snapshots) :
    ℕ → PGraph → ℕ → List (ℕ × ℕ) → List EdgeData → PGraph → Except MapErr (Bool × PGraph)
  | 0, _, _, _, _, g => .ok (true, g)
  | fuel + 1, stale, size2, echunk, dchunk, g =>
      if echunk.isEmpty then .ok (true, g)
      else
        match chunk_process rc snap fuel (collect stale size2 echunk dchunk).1
          (collect stale size2 echunk dchunk).2.1 size2 g with
        | .error err => .error err
        | .ok r =>
          if r.1 then
            sweep_chunks rc snap fuel stale size2 (collect stale size2 echunk dchunk).2.2.1
              (collect stale size2 echunk dchunk).2.2.2 r.2
          else
            match check_chunk rc snap
              ((((collect stale size2 echunk dchunk).2.2.1.zip
                  (collect stale size2 echunk dchunk).2.2.2).filter
                (fun pd => present stale pd.1)).map (fun pd => pd.1))
              ((((collect stale size2 echunk dchunk).2.2.1.zip
                  (collect stale size2 echunk dchunk).2.2.2).filter
                (fun pd => present stale pd.1)).map (fun pd => pd.2)) r.2 with
            | .error err => .error err
            | .ok r2 =>
              if r2.1 then .ok (true, r2.2)
              else
                sweep_chunks rc snap fuel stale size2
                  (collect stale size2 echunk dchunk).2.2.1
                  (collect stale size2 echunk dchunk).2.2.2 r2.2

end

/-- Main chunk loop of `build_map` (`while crt < len(data)`): assemble up to
`chunk_size` edges still present in the current subgraph and hand them to
`chunk_process` (whose boolean result is ignored); an assembled chunk may
be empty when every edge of the window is already absent. -/
def main_loop (rc : RunCtx) (snap : Snapshots) :
    ℕ → List (ℕ × ℕ) → List EdgeData → ℕ → PGraph → Except MapErr PGraph
  | 0, _, _, _, g => .ok g
  | fuel + 1, edges, data, size, g =>
      if edges.isEmpty then .ok g
      else
        match chunk_process rc snap fuel (collect g size edges data).1
          (collect g size edges data).2.1 size g with
        | .error err => .error err
        | .ok r =>
          main_loop rc snap fuel (collect g size edges data).2.2.1
            (collect g size edges data).2.2.2 size r.2

/-- Final single-edge sweep of `build_map`: over the surviving edges in
ascending score order, tentatively remove each edge that is still present
and not flagged `found_path`, keep the removal when `check_constraints`
still holds (no subgraph re-reduction here) and roll it back otherwise.
Edges with `score == 1.0` are not skipped. -/
def final_sweep (rc : RunCtx) (snap : Snapshots) (g0 : PGraph) : PGraph :=
  (sortedEdges rc g0).foldl
    (fun g e =>
      if ¬ present g e then g
      else if (dataOf rc e).found_path then g
      else
        let g1 := remove_edge g e
        if check_constraints rc snap g1 then g1 else add_edge g1 e.1 e.2)
    g0

/-- Intermediate states of one non-optimal-path-mode `build_map` run. -/
structure Trace where
  rc : RunCtx
  snap : Snapshots
  g0 : PGraph
  gred : PGraph
  gchunk : PGraph
  final : PGraph

/-- `MapGenerator.build_map` in non-optimal-path mode (in optimal-path mode
the run stops after `make_optimal_path_graph`), recording the intermediate
states: the found path, the snapshot sets (captured from the unreduced
initial graph), the initial graph, its reduction, the graph after the
chunked phase and the returned graph.
`chunk_size = chunkScale ** int(np.log(len)/np.log(chunkScale))` is
embedded with the exact integer logarithm `intLog`; float64 can
underapproximate the quotient at exact powers (e.g. `len = 1000`,
`scale = 10`), which changes only the chunking granularity.  The fuel fed
to `main_loop` covers every terminating Python run of the examples below;
the invariant theorems hold for arbitrary fuel. -/
def mk_rc (cfg : Config) (path : List ℕ) : RunCtx := ⟨cfg, path, linksOfPath path⟩

/-- The snapshots `initialCycledNodesSet` and `initialCycledEdgesSet` as
`build_map` captures them: from the unreduced initial graph (lines 301-302
precede the reduction of lines 304-311), then never reassigned. -/
def snap_of (rc : RunCtx) : Snapshots :=
  ⟨get_cycled_nodes rc (generate_initial_graph rc),
    get_cycled_edges rc (generate_initial_graph rc)⟩

/-- `self.scoresList` of the chunked phase: the edges of the unreduced
initial graph in ascending score order (computed before the reduction). -/
def initial_order (rc : RunCtx) : List (ℕ × ℕ) :=
  sortedEdges rc (generate_initial_graph rc)

/-- `chunk_size = chunkScale ** int(np.log(len(scoresList))/np.log(chunkScale))`. -/
def chunk_size_of (rc : RunCtx) : ℕ :=
  rc.cfg.chunkScale ^ intLog rc.cfg.chunkScale (initial_order rc).length

def build_map_trace (cfg : Config) : Except MapErr Trace :=
  match find_optimal_path cfg with
  | .error e => .error e
  | .ok path =>
    match reduceAll (mk_rc cfg path) (generate_initial_graph (mk_rc cfg path)) with
    | .error e => .error e
    | .ok ex =>
      if ¬ (mk_rc cfg path).found_path.all (fun x => decide (x ∈ ex.nodes)) then
        .error .invalidInitial
      else
        match main_loop (mk_rc cfg path) (snap_of (mk_rc cfg path))
          (((initial_order (mk_rc cfg path)).length + 2) * (chunk_size_of (mk_rc cfg path) + 2))
          (initial_order (mk_rc cfg path))
          ((initial_order (mk_rc cfg path)).map (dataOf (mk_rc cfg path)))
          (chunk_size_of (mk_rc cfg path)) ex with
        | .error e => .error e
        | .ok gchunk =>
          match get_main_subgraph (mk_rc cfg path)
            (final_sweep (mk_rc cfg path) (snap_of (mk_rc cfg path)) gchunk) with
          | .error e => .error e
          | .ok final =>
            .ok ⟨mk_rc cfg path, snap_of (mk_rc cfg path),
              generate_initial_graph (mk_rc cfg path), ex, gchunk, final⟩

/-- Graph returned in `optimal_path_mode`, with the raw scores its edges
carry. -/
structure OptGraph where
  nodes : Finset ℕ
  edges : List ((ℕ × ℕ) × ℚ)
  deriving DecidableEq

/-- `MapGenerator.make_optimal_path_graph`: a labeled node per path member
and one edge per consecutive path pair, carrying the raw matrix entry
`self.score_matrix[u][v]` (no rounding). -/
def make_optimal_path_graph (rc : RunCtx) : OptGraph :=
  { nodes := (Finset.range rc.cfg.N).filter (fun i => i ∈ rc.found_path)
    edges := (rc.found_path.zip rc.found_path.tail).map
      (fun e => (e, rc.cfg.m e.1 e.2)) }

/-- Outcomes of the `custum_score_matrix` validation in
`MapGenerator.__init__`. -/
inductive MatrixErr where
  | sizeMismatch
  | notSquare
  | indexError
  deriving DecidableEq, Repr

/-- Validation of a supplied `custum_score_matrix` in `__init__`: first the
row count is compared with `len(intermediate_list)`, then only the first
row's length is compared; `matrix[0]` on an empty matrix raises
`IndexError` (reachable only for `N = 0`).  This runs in the constructor,
before any graph is built. -/
def matrix_check (mat : List (List ℚ)) (N : ℕ) : Except MatrixErr Unit :=
  if mat.length ≠ N then .error .sizeMismatch
  else
    match mat with
    | [] => .error .indexError
    | r :: _ => if r.length ≠ N then .error .notSquare else .ok ()

/-- The property the spec asserts the constructor validates: `N` rows, each
of length `N`. -/
def IsNxN (mat : List (List ℚ)) (N : ℕ) : Prop :=
  mat.length = N ∧ ∀ r ∈ mat, r.length = N

instance (mat : List (List ℚ)) (N : ℕ) : Decidable (IsNxN mat N) := by
  unfold IsNxN
  infer_instance

/-- Invariant maintained by the whole pruning pipeline: every found link is
an edge, every found-path node is a node, and the graph is well-formed. -/
def Inv (rc : RunCtx) (g : PGraph) : Prop :=
  (∀ l ∈ rc.found_links, l ∈ g.edges) ∧ (∀ x ∈ rc.found_path, x ∈ g.nodes) ∧ g.WF

/-- Structural facts about the found path and links holding once
`find_optimal_path` succeeded: link endpoints lie on the path and links are
normalized. -/
def RCok (rc : RunCtx) : Prop :=
  ∀ l ∈ rc.found_links, l.1 ∈ rc.found_path ∧ l.2 ∈ rc.found_path ∧ l.1 < l.2

/-- Found links recorded by a `build_map` run (empty when the run raised). -/
def trace_links (cfg : Config) : List (ℕ × ℕ) :=
  match build_map_trace cfg with
  | .ok tr => tr.rc.found_links
  | .error _ => []

/-- Found path recorded by a `build_map` run. -/
def trace_path (cfg : Config) : List ℕ :=
  match build_map_trace cfg with
  | .ok tr => tr.rc.found_path
  | .error _ => []

/-- Runtime context of a `build_map` run (constructor defaults on failure). -/
def trace_rc (cfg : Config) : RunCtx :=
  match build_map_trace cfg with
  | .ok tr => tr.rc
  | .error _ => ⟨cfg, [cfg.source, cfg.target], [(cfg.source, cfg.target)]⟩

/-- `initialCycledNodesSet` captured by a `build_map` run. -/
def trace_snap_nodes (cfg : Config) : Finset ℕ :=
  match build_map_trace cfg with
  | .ok tr => tr.snap.cycNodes
  | .error _ => ∅

/-- `initialCycledEdgesSet` captured by a `build_map` run. -/
def trace_snap_edges (cfg : Config) : Finset (ℕ × ℕ) :=
  match build_map_trace cfg with
  | .ok tr => tr.snap.cycEdges
  | .error _ => ∅

/-- Edges of the reduced initial graph of a `build_map` run. -/
def trace_red_edges (cfg : Config) : Finset (ℕ × ℕ) :=
  match build_map_trace cfg with
  | .ok tr => tr.gred.edges
  | .error _ => ∅

/-- Nodes of the reduced initial graph of a `build_map` run. -/
def trace_red (cfg : Config) : PGraph :=
  match build_map_trace cfg with
  | .ok tr => tr.gred
  | .error _ => ⟨∅, ∅⟩

/-- Edges surviving the chunked phase of a `build_map` run. -/
def trace_chunk_edges (cfg : Config) : Finset (ℕ × ℕ) :=
  match build_map_trace cfg with
  | .ok tr => tr.gchunk.edges
  | .error _ => ∅

/-- Edges of the graph returned by a `build_map` run. -/
def trace_final_edges (cfg : Config) : Finset (ℕ × ℕ) :=
  match build_map_trace cfg with
  | .ok tr => tr.final.edges
  | .error _ => ∅

/-- Symmetric score matrix of the first worked example: a direct
source-target edge of score `0.9`, two further nodes `2` and `3` each tied
to both endpoints by score-`1.0` edges, and nothing else. -/
def mC1 (u v : ℕ) : ℚ :=
  match normPair u v with
  | (0, 1) => 0.9
  | (0, 2) => 1
  | (0, 3) => 1
  | (1, 2) => 1
  | (1, 3) => 1
  | (2, 3) => 0.1
  | _ => 1

/-- Example configuration with the default parameters of `__init__`. -/
def cfgC1 : Config := ⟨4, mC1, 4, 3, 3, 0.2, 10, 0, 1⟩

/-- Score matrix of the second worked example: found path `0-2-1`, a
triangle `0-2-3` away from the reachable region when `maxPathLength = 2`. -/
def mC2 (u v : ℕ) : ℚ :=
  match normPair u v with
  | (0, 2) => 0.9
  | (1, 2) => 0.9
  | (0, 3) => 0.9
  | (2, 3) => 0.9
  | (0, 1) => 0.1
  | (1, 3) => 0.1
  | _ => 1

/-- Example configuration with `maxPathLength = 2` (all other parameters at
their defaults). -/
def cfgC2 : Config := ⟨4, mC2, 2, 3, 3, 0.2, 10, 0, 1⟩

/-- Score matrix of the tie-break example: two disjoint two-edge
source-target paths, all four edges of score `1.0`. -/
def mC7 (u v : ℕ) : ℚ :=
  match normPair u v with
  | (0, 2) => 1
  | (1, 2) => 1
  | (0, 3) => 1
  | (1, 3) => 1
  | (0, 1) => 0.1
  | (2, 3) => 0.1
  | _ => 1

/-- Example configuration for the reciprocal-sum tie-break. -/
def cfgC7 : Config := ⟨4, mC7, 4, 3, 3, 0.2, 10, 0, 1⟩

/-- Scenario with every score below the threshold (`NoPathFound`). -/
def cfgC8 : Config := ⟨3, fun _ _ => 0.1, 4, 3, 3, 0.2, 10, 0, 1⟩

/-- Matrix entry whose two-decimal rounding differs from the raw value. -/
def mC4 (_ _ : ℕ) : ℚ := 0.567

/-- Two-node configuration exercising `make_optimal_path_graph`. -/
def cfgC4 : Config := ⟨2, mC4, 4, 3, 3, 0.2, 10, 0, 1⟩

/-- Ragged matrix accepted by the constructor's shape check: two rows, the
first of length 2, the second of length 1. -/
def raggedMatrix : List (List ℚ) := [[1, 0.5], [0.5]]

/-- Concrete context for the empty-chunk example. -/
def rcC9 : RunCtx := ⟨⟨3, fun _ _ => 0.9, 4, 3, 3, 0.2, 10, 0, 1⟩, [0, 1], [(0, 1)]⟩

/-- Empty snapshots (trivially covered constraints). -/
def snapC9 : Snapshots := ⟨∅, ∅⟩

/-- Graph with a dangling node `2` that the reachable reduction drops. -/
def gC9 : PGraph := ⟨{0, 1, 2}, {(0, 1)}⟩

/-- The reduction of `gC9`: node `2` is gone. -/
def exC9 : PGraph := ⟨{0, 1}, {(0, 1)}⟩

instance {ε α : Type} [DecidableEq ε] [DecidableEq α] : DecidableEq (Except ε α) :=
  fun a b =>
    match a, b with
    | .ok x, .ok y =>
      if h : x = y then .isTrue (by rw [h]) else .isFalse (fun hc => h (by injection hc))
    | .error x, .error y =>
      if h : x = y then .isTrue (by rw [h]) else .isFalse (fun hc => h (by injection hc))
    | .ok _, .error _ => .isFalse (fun hc => Except.noConfusion hc)
    | .error _, .ok _ => .isFalse (fun hc => Except.noConfusion hc)

/-- Context of the first worked example after path selection. -/
def rcC1 : RunCtx := mk_rc cfgC1 [0, 1]

/-- Initial graph of the first worked example. -/
def gC1 : PGraph := generate_initial_graph rcC1

/-- Context of the second worked example after path selection. -/
def rcC6 : RunCtx := mk_rc cfgC2 [0, 2, 1]

/-- Initial graph of the second worked example. -/
def gC6 : PGraph := generate_initial_graph rcC6

/-- Success test for an `Except` result. -/
def okB {ε α : Type _} (x : Except ε α) : Bool :=
  match x with
  | .ok _ => true
  | .error _ => false

lemma mem_combos {N : ℕ} {e : ℕ × ℕ} : e ∈ combos N ↔ e.1 < e.2 ∧ e.2 < N := by
  cases e with
  | mk u v =>
    simp only [combos, List.mem_flatMap, List.mem_map, List.mem_filter, List.mem_range,
      decide_eq_true_eq, Prod.mk.injEq]
    constructor
    · rintro ⟨a, ha, b, ⟨hb, hab⟩, rfl, rfl⟩
      omega
    · rintro ⟨h1, h2⟩
      exact ⟨u, by omega, v, ⟨h2, h1⟩, rfl, rfl⟩

lemma edgePass_edata (m : ℕ → ℕ → ℚ) (τ : ℚ) (N : ℕ) (g : WGraph) :
    (edgePass m τ N g).edata = g.edata ∪ qualData m τ N := by
  unfold edgePass qualData
  generalize combos N = l
  induction l generalizing g with
  | nil => simp
  | cons e tl ih =>
    rw [List.foldl_cons]
    by_cases h : τ ≤ round2 (m e.1 e.2)
    · rw [if_pos h, ih, List.filter_cons_of_pos (by simpa using h), List.map_cons,
        List.toFinset_cons]
      cases e with
      | mk u v =>
        simp only [addEdgeW]
        ext p
        simp only [Finset.mem_union, Finset.mem_insert]
        tauto
    · rw [if_neg h, ih, List.filter_cons_of_neg (by simpa using h)]

lemma edgePass_nodes_le (m : ℕ → ℕ → ℚ) (τ : ℚ) (N : ℕ) (g : WGraph) :
    (edgePass m τ N g).nodes ⊆ g.nodes ∪ Finset.range N := by
  unfold edgePass
  have key : ∀ (l : List (ℕ × ℕ)), (∀ e ∈ l, e.1 < N ∧ e.2 < N) → ∀ g : WGraph,
      (l.foldl (fun g e =>
        if τ ≤ round2 (m e.1 e.2) then addEdgeW g e.1 e.2 (round2 (m e.1 e.2)) else g) g).nodes
        ⊆ g.nodes ∪ Finset.range N := by
    intro l hl
    induction l with
    | nil => intro g; simp
    | cons e tl ih =>
      intro g
      have he := hl e (by simp)
      have htl : ∀ e ∈ tl, e.1 < N ∧ e.2 < N := fun x hx => hl x (by simp [hx])
      simp only [List.foldl_cons]
      refine (ih htl _).trans ?_
      by_cases h : τ ≤ round2 (m e.1 e.2)
      · simp only [if_pos h, addEdgeW]
        intro x hx
        simp only [Finset.mem_union, Finset.mem_insert, Finset.mem_range] at hx ⊢
        rcases hx with (rfl | rfl | hx) | hx
        · exact Or.inr he.1
        · exact Or.inr he.2
        · exact Or.inl hx
        · exact Or.inr hx
      · simp [h]
  exact key (combos N) (fun e he => by
    have := mem_combos.mp he
    omega) g

lemma edgePass_nodes_mono (m : ℕ → ℕ → ℚ) (τ : ℚ) (N : ℕ) (g : WGraph) :
    g.nodes ⊆ (edgePass m τ N g).nodes := by
  unfold edgePass
  generalize combos N = l
  induction l generalizing g with
  | nil => simp
  | cons e tl ih =>
    simp only [List.foldl_cons]
    refine Finset.Subset.trans ?_ (ih _)
    by_cases h : τ ≤ round2 (m e.1 e.2)
    · simp only [if_pos h, addEdgeW]
      intro x hx
      simp [hx]
    · simp [h]

lemma make_graph_nodes (m : ℕ → ℕ → ℚ) (τ : ℚ) (N : ℕ) :
    (make_graph m τ N).nodes = Finset.range N := by
  unfold make_graph
  apply Finset.Subset.antisymm
  · have key : ∀ (l : List ℕ), (∀ i ∈ l, i < N) → ∀ g : WGraph, g.nodes ⊆ Finset.range N →
        ((l.foldl (fun g i => edgePass m τ N (addNode g i)) g).nodes) ⊆ Finset.range N := by
      intro l hl
      induction l with
      | nil => intro g hg; simpa using hg
      | cons i tl ih =>
        intro g hg
        have hi := hl i (by simp)
        have htl : ∀ j ∈ tl, j < N := fun x hx => hl x (by simp [hx])
        simp only [List.foldl_cons]
        refine ih htl _ ?_
        refine (edgePass_nodes_le m τ N _).trans ?_
        intro x hx
        simp only [Finset.mem_union, Finset.mem_range] at hx
        rcases hx with hx | hx
        · simp only [addNode, Finset.mem_insert] at hx
          rcases hx with rfl | hx
          · simpa using hi
          · exact hg hx
        · simpa using hx
    exact key _ (fun i hi => List.mem_range.mp hi) _ (by simp [WGraph.empty])
  · have key : ∀ (l : List ℕ) (g : WGraph),
        g.nodes ∪ l.toFinset ⊆ ((l.foldl (fun g i => edgePass m τ N (addNode g i)) g).nodes) := by
      intro l
      induction l with
      | nil => intro g; simp
      | cons i tl ih =>
        intro g
        simp only [List.foldl_cons]
        intro x hx
        simp only [Finset.mem_union, List.toFinset_cons, Finset.mem_insert] at hx
        refine ih _ ?_
        simp only [Finset.mem_union]
        rcases hx with hx | rfl | hx
        · exact Or.inl (edgePass_nodes_mono m τ N _ (by simp [addNode, hx]))
        · exact Or.inl (edgePass_nodes_mono m τ N _ (by simp [addNode]))
        · exact Or.inr (by simpa using hx)
    intro x hx
    refine key (List.range N) WGraph.empty ?_
    simp only [Finset.mem_union, List.mem_toFinset, List.mem_range]
    exact Or.inr (Finset.mem_range.mp hx)

lemma make_graph_edata (m : ℕ → ℕ → ℚ) (τ : ℚ) (N : ℕ) :
    (make_graph m τ N).edata = qualData m τ N := by
  unfold make_graph
  rcases Nat.eq_zero_or_pos N with rfl | hN
  · simp [WGraph.empty, qualData, combos]
  · have key : ∀ (l : List ℕ) (g : WGraph), l ≠ [] →
        ((l.foldl (fun g i => edgePass m τ N (addNode g i)) g).edata)
          = g.edata ∪ qualData m τ N := by
      intro l
      induction l with
      | nil => intro g h; exact absurd rfl h
      | cons i tl ih =>
        intro g _
        rcases tl with _ | ⟨j, tl'⟩
        · simp [edgePass_edata, addNode]
        · rw [List.foldl_cons, ih _ (by simp)]
          simp only [edgePass_edata, addNode]
          ext p
          simp only [Finset.mem_union]
          tauto
    have hne : List.range N ≠ [] := by
      intro h
      rw [List.range_eq_nil] at h
      omega
    rw [key _ _ hne]
    simp [WGraph.empty]

/-- The claim-C10 equivalence target, proved below as `claim_C10`. -/
lemma make_graph_eq_single_pass (m : ℕ → ℕ → ℚ) (τ : ℚ) (N : ℕ) :
    make_graph m τ N = single_pass_graph m τ N := by
  cases hmk : make_graph m τ N with
  | mk nodes edata =>
    have h1 := make_graph_nodes m τ N
    have h2 := make_graph_edata m τ N
    rw [hmk] at h1 h2
    simp only [single_pass_graph]
    simp_all

lemma mem_sortNatList {s : Multiset ℕ} {x : ℕ} : x ∈ sortNatList s ↔ x ∈ s := by
  induction s using Quot.inductionOn with
  | h l => exact (List.perm_insertionSort _ l).mem_iff

lemma mem_sortPairList {s : Multiset (ℕ × ℕ)} {x : ℕ × ℕ} :
    x ∈ sortPairList s ↔ x ∈ s := by
  induction s using Quot.inductionOn with
  | h l => exact (List.perm_insertionSort _ l).mem_iff

lemma remove_edges_from_spec (g : PGraph) (l : List (ℕ × ℕ)) :
    remove_edges_from g l
      = ⟨g.nodes, g.edges \ (l.map (fun e => normPair e.1 e.2)).toFinset⟩ := by
  unfold remove_edges_from
  induction l generalizing g with
  | nil => simp
  | cons e tl ih =>
    rw [List.foldl_cons, ih]
    simp only [remove_edge, List.map_cons, List.toFinset_cons]
    congr 1
    ext x
    simp only [Finset.mem_sdiff, Finset.mem_erase, Finset.mem_insert]
    tauto

lemma mem_adjList {g : PGraph} {u w : ℕ} :
    w ∈ adjList g u ↔ w ∈ g.nodes ∧ normPair u w ∈ g.edges := by
  rw [adjList, List.mem_filter, mem_sortNatList]
  simp only [present, decide_eq_true_eq]
  exact Iff.rfl

lemma mem_nodes_of_edge {g : PGraph} (hWF : g.WF) {u w : ℕ}
    (h : normPair u w ∈ g.edges) : u ∈ g.nodes ∧ w ∈ g.nodes := by
  have := hWF _ h
  unfold normPair at h this
  split at h <;> simp_all

lemma getLast?_cons_of_ne_nil {α : Type} (s : α) {q : List α} (hq : q ≠ []) :
    (s :: q).getLast? = q.getLast? := by
  rw [List.getLast?_cons, List.getLast?_eq_getLast _ hq]
  simp

lemma mem_spAux {g : PGraph} (hWF : g.WF) {t cutoff : ℕ} :
    ∀ (n : ℕ) (P : List ℕ) (u : ℕ), cutoff + 1 ≤ n + P.length →
      P.getLast? = some u → P.Nodup → t ∉ P → P.length ≤ cutoff → ∀ p,
      (p ∈ spAux g t cutoff n P u ↔
        ∃ q, p = P ++ q ∧ q ≠ [] ∧ q.getLast? = some t ∧ (P ++ q).Nodup ∧
          (P ++ q).length ≤ cutoff + 1 ∧
          List.Chain' (fun a b => normPair a b ∈ g.edges) (u :: q)) := by
  intro n
  induction n with
  | zero =>
    intro P u hn _ _ _ hlen p
    omega
  | succ n ih =>
    intro P u hn hlast hnd ht hlen p
    rw [spAux]
    simp only [List.mem_flatMap]
    constructor
    · rintro ⟨w, hwadj, hp⟩
      rw [mem_adjList] at hwadj
      by_cases hwP : w ∈ P
      · simp [hwP] at hp
      · by_cases hwt : w = t
        · subst hwt
          simp only [if_neg hwP, if_true, eq_self_iff_true, List.mem_singleton] at hp
          subst hp
          refine ⟨[w], rfl, by simp, by simp, ?_, by simp; omega, ?_⟩
          · simp [List.nodup_append, hnd, hwP]
          · simp [hwadj.2]
        · by_cases hcut : P.length < cutoff
          · simp only [if_neg hwP, if_neg hwt, if_pos hcut] at hp
            have hih := ih (P ++ [w]) w (by simp; omega) (by simp)
              (by simp [List.nodup_append, hnd, hwP])
              (by simp [ht, Ne.symm hwt]) (by simp; omega) p
            rw [hih] at hp
            obtain ⟨q', rfl, hq1, hq2, hq3, hq4, hq5⟩ := hp
            refine ⟨w :: q', by simp, by simp, ?_, ?_, ?_, ?_⟩
            · rw [getLast?_cons_of_ne_nil _ hq1]
              exact hq2
            · simpa using hq3
            · simpa using hq4
            · rw [List.chain'_cons]
              exact ⟨hwadj.2, hq5⟩
          · simp [hwP, hwt, hcut] at hp
    · rintro ⟨q, rfl, hq1, hq2, hq3, hq4, hq5⟩
      obtain ⟨w, q'', rfl⟩ := List.exists_cons_of_ne_nil hq1
      rw [List.chain'_cons] at hq5
      have hedge : normPair u w ∈ g.edges := hq5.1
      have hwnodes : w ∈ g.nodes := (mem_nodes_of_edge hWF hedge).2
      have hwP : w ∉ P := by
        rw [List.nodup_append] at hq3
        exact fun hmem => hq3.2.2 hmem (by simp)
      refine ⟨w, mem_adjList.mpr ⟨hwnodes, hedge⟩, ?_⟩
      by_cases hwt : w = t
      · subst hwt
        have hq'' : q'' = [] := by
          by_contra hne
          rw [getLast?_cons_of_ne_nil _ hne, List.getLast?_eq_getLast _ hne] at hq2
          simp only [Option.some.injEq] at hq2
          have : w ∈ q'' := hq2 ▸ List.getLast_mem hne
          rw [List.nodup_append] at hq3
          exact (List.nodup_cons.mp hq3.2.1).1 this
        subst hq''
        simp [hwP]
      · have hq''ne : q'' ≠ [] := by
          rintro rfl
          simp at hq2
          exact hwt hq2
        have hcut : P.length < cutoff := by
          have h1 : 1 ≤ q''.length := List.length_pos.mpr hq''ne
          simp only [List.length_append, List.length_cons] at hq4
          omega
        simp only [if_neg hwP, if_neg hwt, if_pos hcut]
        have hih := ih (P ++ [w]) w (by simp; omega) (by simp)
          (by simp [List.nodup_append, hnd, hwP])
          (by simp [ht, Ne.symm hwt]) (by simp; omega) (P ++ w :: q'')
        rw [hih]
        refine ⟨q'', by simp, hq''ne, ?_, by simpa using hq3, by simpa using hq4, hq5.2⟩
        rw [getLast?_cons_of_ne_nil _ hq''ne] at hq2
        exact hq2

/-- Characterization of the DFS path listing: for `s ≠ t` and a positive
cutoff it contains exactly the bounded simple `s`-`t` paths. -/
lemma mem_all_simple_paths {g : PGraph} (hWF : g.WF) {s t cutoff : ℕ}
    (hst : s ≠ t) (hc : 1 ≤ cutoff) {p : List ℕ} :
    p ∈ all_simple_paths g s t cutoff ↔ IsBoundedPath g s t cutoff p := by
  rw [all_simple_paths,
    mem_spAux hWF cutoff [s] s (by simp) rfl (by simp) (by simpa using Ne.symm hst)
      (by simpa using hc) p]
  unfold IsBoundedPath
  constructor
  · rintro ⟨q, rfl, hq1, hq2, hq3, hq4, hq5⟩
    have hc : ([s] ++ q : List ℕ) = s :: q := by simp
    rw [hc] at hq3 hq4 ⊢
    have hlen2 : 2 ≤ (s :: q).length := by
      have := List.length_pos.mpr hq1
      simp only [List.length_cons]
      omega
    refine ⟨hlen2, by simpa using hq4, by simp, ?_, hq3, hq5⟩
    rw [getLast?_cons_of_ne_nil _ hq1]
    exact hq2
  · rintro ⟨h1, h2, h3, h4, h5, h6⟩
    obtain ⟨a, q, rfl⟩ := List.exists_cons_of_ne_nil (show p ≠ [] by
      intro h
      subst h
      simp at h1)
    have ha : a = s := by simpa using h3
    subst ha
    have hqne : q ≠ [] := by
      rintro rfl
      simp at h1
    refine ⟨q, by simp, hqne, ?_, by simpa using h5, by simpa using h2, h6⟩
    rw [getLast?_cons_of_ne_nil _ hqne] at h4
    exact h4

lemma normPair_lt {a b : ℕ} (h : a ≠ b) : (normPair a b).1 < (normPair a b).2 := by
  unfold normPair
  split <;> omega

lemma normPair_eq_self {l : ℕ × ℕ} (h : l.1 < l.2) : normPair l.1 l.2 = l := by
  unfold normPair
  rw [if_pos (by omega)]

lemma normPair_fst_cases (a b : ℕ) :
    ((normPair a b).1 = a ∧ (normPair a b).2 = b) ∨
      ((normPair a b).1 = b ∧ (normPair a b).2 = a) := by
  unfold normPair
  split <;> simp

/-- Soundness half of the DFS enumeration, with no hypotheses on the graph
or the cutoff: every produced list extends `P` by a nonempty simple suffix
that is chain-adjacent from `u` and ends at `t`. -/
lemma spAux_sound {g : PGraph} {t cutoff : ℕ} :
    ∀ (n : ℕ) (P : List ℕ) (u : ℕ) (p : List ℕ), p ∈ spAux g t cutoff n P u →
      P.Nodup → t ∉ P →
      ∃ q, p = P ++ q ∧ q ≠ [] ∧ q.getLast? = some t ∧ (P ++ q).Nodup ∧
        List.Chain' (fun a b => normPair a b ∈ g.edges) (u :: q) := by
  intro n
  induction n with
  | zero =>
    intro P u p hp hnd ht
    rw [spAux] at hp
    simp only [List.mem_flatMap] at hp
    obtain ⟨w, hwadj, hp⟩ := hp
    rw [mem_adjList] at hwadj
    by_cases hwP : w ∈ P
    · simp [hwP] at hp
    · by_cases hwt : w = t
      · subst hwt
        simp only [if_neg hwP, if_true, eq_self_iff_true, List.mem_singleton] at hp
        subst hp
        exact ⟨[w], rfl, by simp, by simp, by simp [List.nodup_append, hnd, hwP],
          by simp [hwadj.2]⟩
      · by_cases hcut : P.length < cutoff
        · simp [hwP, hwt, hcut] at hp
        · simp [hwP, hwt, hcut] at hp
  | succ n ih =>
    intro P u p hp hnd ht
    rw [spAux] at hp
    simp only [List.mem_flatMap] at hp
    obtain ⟨w, hwadj, hp⟩ := hp
    rw [mem_adjList] at hwadj
    by_cases hwP : w ∈ P
    · simp [hwP] at hp
    · by_cases hwt : w = t
      · subst hwt
        simp only [if_neg hwP, if_true, eq_self_iff_true, List.mem_singleton] at hp
        subst hp
        exact ⟨[w], rfl, by simp, by simp, by simp [List.nodup_append, hnd, hwP],
          by simp [hwadj.2]⟩
      · by_cases hcut : P.length < cutoff
        · simp only [if_neg hwP, if_neg hwt, if_pos hcut] at hp
          obtain ⟨q', rfl, hq1, hq2, hq3, hq5⟩ :=
            ih (P ++ [w]) w p hp (by simp [List.nodup_append, hnd, hwP])
              (by simp [ht, Ne.symm hwt])
          refine ⟨w :: q', by simp, by simp, ?_, by simpa using hq3, ?_⟩
          · rw [getLast?_cons_of_ne_nil _ hq1]
            exact hq2
          · rw [List.chain'_cons]
            exact ⟨hwadj.2, hq5⟩
        · simp [hwP, hwt, hcut] at hp

/-- The DFS never yields anything when the target is already on the running
path: in particular `all_simple_paths g s s cutoff = []`. -/
lemma spAux_nil_of_mem {g : PGraph} {t cutoff : ℕ} :
    ∀ (n : ℕ) (P : List ℕ) (u : ℕ), t ∈ P → spAux g t cutoff n P u = [] := by
  intro n
  induction n with
  | zero =>
    intro P u ht
    rw [spAux]
    apply List.flatMap_eq_nil_iff.mpr
    intro w _
    by_cases hwP : w ∈ P
    · simp [hwP]
    · have hwt : w ≠ t := fun h => hwP (h ▸ ht)
      by_cases hcut : P.length < cutoff <;> simp [hwP, hwt, hcut]
  | succ n ih =>
    intro P u ht
    rw [spAux]
    apply List.flatMap_eq_nil_iff.mpr
    intro w _
    by_cases hwP : w ∈ P
    · simp [hwP]
    · have hwt : w ≠ t := fun h => hwP (h ▸ ht)
      by_cases hcut : P.length < cutoff
      · simp only [if_neg hwP, if_neg hwt, if_pos hcut]
        exact ih (P ++ [w]) w (by simp [ht])
      · simp [hwP, hwt, hcut]

lemma chain'_zip_tail {R : ℕ → ℕ → Prop} :
    ∀ {p : List ℕ}, List.Chain' R p → ∀ ab ∈ p.zip p.tail, R ab.1 ab.2 := by
  intro p
  induction p with
  | nil => intro _ ab hab; simp at hab
  | cons a tl ih =>
    intro hch ab hab
    cases tl with
    | nil => simp at hab
    | cons b tl' =>
      rw [List.chain'_cons] at hch
      simp only [List.tail_cons, List.zip_cons_cons, List.mem_cons] at hab
      rcases hab with rfl | hab
      · exact hch.1
      · exact ih hch.2 ab (by simpa using hab)

lemma mem_qualData {m : ℕ → ℕ → ℚ} {τ : ℚ} {N : ℕ} {p : (ℕ × ℕ) × ℚ} :
    p ∈ qualData m τ N ↔
      p.1 ∈ combos N ∧ τ ≤ round2 (m p.1.1 p.1.2) ∧ p.2 = round2 (m p.1.1 p.1.2) := by
  unfold qualData
  simp only [List.mem_toFinset, List.mem_map, List.mem_filter, decide_eq_true_eq]
  constructor
  · rintro ⟨e, ⟨he, hq⟩, rfl⟩
    exact ⟨he, hq, rfl⟩
  · rintro ⟨he, hq, hp⟩
    refine ⟨p.1, ⟨he, hq⟩, ?_⟩
    cases p with
    | mk e s =>
      simp only at hp ⊢
      rw [hp]

lemma mem_toP_edges {w : WGraph} {e : ℕ × ℕ} :
    e ∈ w.toP.edges ↔ ∃ s, (e, s) ∈ w.edata := by
  unfold WGraph.toP
  simp only [Finset.mem_image]
  constructor
  · rintro ⟨a, ha, rfl⟩
    exact ⟨a.2, by simpa using ha⟩
  · rintro ⟨s, h⟩
    exact ⟨(e, s), h, rfl⟩

lemma mem_initial_edges {rc : RunCtx} {e : ℕ × ℕ} :
    e ∈ (generate_initial_graph rc).edges ↔
      e.1 < e.2 ∧ e.2 < rc.cfg.N ∧
        rc.cfg.minScoreThreshold ≤ round2 (rc.cfg.m e.1 e.2) := by
  unfold generate_initial_graph
  rw [mem_toP_edges]
  constructor
  · rintro ⟨s, hs⟩
    rw [make_graph_edata, mem_qualData] at hs
    have h := mem_combos.mp hs.1
    exact ⟨h.1, h.2, hs.2.1⟩
  · rintro ⟨h1, h2, h3⟩
    refine ⟨round2 (rc.cfg.m e.1 e.2), ?_⟩
    rw [make_graph_edata, mem_qualData]
    exact ⟨mem_combos.mpr ⟨h1, h2⟩, h3, rfl⟩

lemma initial_nodes (rc : RunCtx) :
    (generate_initial_graph rc).nodes = Finset.range rc.cfg.N := by
  unfold generate_initial_graph WGraph.toP
  exact make_graph_nodes _ _ _

lemma initial_WF (rc : RunCtx) : (generate_initial_graph rc).WF := by
  intro e he
  rw [mem_initial_edges] at he
  rw [show (generate_initial_graph rc).nodes = Finset.range rc.cfg.N from initial_nodes rc]
  refine ⟨Finset.mem_range.mpr (by omega), Finset.mem_range.mpr (by omega), he.1⟩

lemma induced_WF {g : PGraph} (h : g.WF) (S : Finset ℕ) : (induced g S).WF := by
  intro e he
  simp only [induced, Finset.mem_filter] at he
  obtain ⟨he1, he2, he3⟩ := he
  have hw := h e he1
  exact ⟨Finset.mem_inter.mpr ⟨hw.1, he2⟩, Finset.mem_inter.mpr ⟨hw.2.1, he3⟩, hw.2.2⟩

lemma remove_edge_WF {g : PGraph} (h : g.WF) (e : ℕ × ℕ) : (remove_edge g e).WF :=
  fun x hx => h x (Finset.mem_of_mem_erase hx)

lemma remove_edges_from_WF {g : PGraph} (h : g.WF) (l : List (ℕ × ℕ)) :
    (remove_edges_from g l).WF := by
  rw [remove_edges_from_spec]
  intro x hx
  exact h x (Finset.mem_sdiff.mp hx).1

lemma add_edge_WF {g : PGraph} (h : g.WF) {u v : ℕ} (huv : u ≠ v) :
    (add_edge g u v).WF := by
  intro x hx
  simp only [add_edge, Finset.mem_insert] at hx ⊢
  rcases hx with rfl | hx
  · rcases normPair_fst_cases u v with ⟨h1, h2⟩ | ⟨h1, h2⟩ <;>
      exact ⟨by simp [h1], by simp [h2], normPair_lt huv⟩
  · have hw := h x hx
    exact ⟨Or.inr (Or.inr hw.1), Or.inr (Or.inr hw.2.1), hw.2.2⟩

lemma subset_foldl {β : Type} (st : Finset ℕ → β → Finset ℕ)
    (mono : ∀ acc b, acc ⊆ st acc b) :
    ∀ (l : List β) (base : Finset ℕ), base ⊆ l.foldl st base := by
  intro l
  induction l with
  | nil => intro base; simp
  | cons b tl ih => intro base; exact (mono base b).trans (ih (st base b))

lemma induced_Inv {rc : RunCtx} {g : PGraph} {S : Finset ℕ}
    (hrc : RCok rc) (hInv : Inv rc g)
    (hnodes : ∀ x ∈ rc.found_path, x ∈ (induced g S).nodes) :
    Inv rc (induced g S) := by
  obtain ⟨hl, hn, hw⟩ := hInv
  refine ⟨?_, hnodes, induced_WF hw S⟩
  intro l hmem
  obtain ⟨hp1, hp2, _⟩ := hrc l hmem
  have h1 : l.1 ∈ (induced g S).nodes := hnodes _ hp1
  have h2 : l.2 ∈ (induced g S).nodes := hnodes _ hp2
  simp only [induced, Finset.mem_inter] at h1 h2
  simp only [induced, Finset.mem_filter]
  exact ⟨hl l hmem, h1.2, h2.2⟩

lemma reachable_ok_cases {rc : RunCtx} {g g' : PGraph}
    (h : get_reachable_subgraph rc g = .ok g') :
    ∃ S, g' = induced g S ∧ ∀ x ∈ rc.found_path, x ∈ (induced g S).nodes := by
  unfold get_reachable_subgraph at h
  split at h
  · rename_i hcond
    refine ⟨_, (Except.ok.injEq _ _).mp h |>.symm, ?_⟩
    intro x hx
    have := List.all_eq_true.mp hcond x hx
    simpa using this
  · exact absurd h (by simp)

lemma cycle_ok_cases {rc : RunCtx} {g g' : PGraph}
    (h : get_cycle_subgraph rc g = .ok g') :
    ∃ S, g' = induced g S ∧ ∀ x ∈ rc.found_path, x ∈ (induced g S).nodes := by
  unfold get_cycle_subgraph at h
  split at h
  · rename_i hcond
    refine ⟨_, (Except.ok.injEq _ _).mp h |>.symm, ?_⟩
    intro x hx
    have := List.all_eq_true.mp hcond x hx
    simpa using this
  · exact absurd h (by simp)

lemma main_ok_cases {rc : RunCtx} {g g' : PGraph}
    (h : get_main_subgraph rc g = .ok g') :
    ∃ S, g' = induced g S ∧ ∀ x ∈ rc.found_path, x ∈ (induced g S).nodes := by
  unfold get_main_subgraph at h
  split at h
  · rename_i hcond
    refine ⟨_, (Except.ok.injEq _ _).mp h |>.symm, ?_⟩
    intro x hx
    have := List.all_eq_true.mp hcond x hx
    simpa using this
  · exact absurd h (by simp)

lemma reachable_Inv {rc : RunCtx} {g g' : PGraph} (hrc : RCok rc) (hInv : Inv rc g)
    (h : get_reachable_subgraph rc g = .ok g') : Inv rc g' := by
  obtain ⟨S, rfl, hS⟩ := reachable_ok_cases h
  exact induced_Inv hrc hInv hS

lemma cycle_Inv {rc : RunCtx} {g g' : PGraph} (hrc : RCok rc) (hInv : Inv rc g)
    (h : get_cycle_subgraph rc g = .ok g') : Inv rc g' := by
  obtain ⟨S, rfl, hS⟩ := cycle_ok_cases h
  exact induced_Inv hrc hInv hS

lemma main_Inv {rc : RunCtx} {g g' : PGraph} (hrc : RCok rc) (hInv : Inv rc g)
    (h : get_main_subgraph rc g = .ok g') : Inv rc g' := by
  obtain ⟨S, rfl, hS⟩ := main_ok_cases h
  exact induced_Inv hrc hInv hS

lemma mem_restore_edges {l : List (ℕ × ℕ)} :
    ∀ {g : PGraph} {x : ℕ × ℕ},
      (x ∈ (restore_edges g l).edges ↔ x ∈ g.edges ∨ ∃ e ∈ l, normPair e.1 e.2 = x) := by
  unfold restore_edges
  induction l with
  | nil => simp
  | cons e tl ih =>
    intro g x
    rw [List.foldl_cons, ih]
    simp only [add_edge, Finset.mem_insert, List.mem_cons]
    constructor
    · rintro ((rfl | hx) | ⟨e', he', rfl⟩)
      · exact Or.inr ⟨e, Or.inl rfl, rfl⟩
      · exact Or.inl hx
      · exact Or.inr ⟨e', Or.inr he', rfl⟩
    · rintro (hx | ⟨e', rfl | he', rfl⟩)
      · exact Or.inl (Or.inr hx)
      · exact Or.inl (Or.inl rfl)
      · exact Or.inr ⟨e', he', rfl⟩

lemma mem_restore_nodes {l : List (ℕ × ℕ)} :
    ∀ {g : PGraph} {x : ℕ},
      (x ∈ (restore_edges g l).nodes ↔ x ∈ g.nodes ∨ ∃ e ∈ l, x = e.1 ∨ x = e.2) := by
  unfold restore_edges
  induction l with
  | nil => simp
  | cons e tl ih =>
    intro g x
    rw [List.foldl_cons, ih]
    simp only [add_edge, Finset.mem_insert, List.mem_cons]
    constructor
    · rintro ((rfl | rfl | hx) | ⟨e', he', hor⟩)
      · exact Or.inr ⟨e, Or.inl rfl, Or.inl rfl⟩
      · exact Or.inr ⟨e, Or.inl rfl, Or.inr rfl⟩
      · exact Or.inl hx
      · exact Or.inr ⟨e', Or.inr he', hor⟩
    · rintro (hx | ⟨e', rfl | he', hor⟩)
      · exact Or.inl (Or.inr (Or.inr hx))
      · rcases hor with rfl | rfl
        · exact Or.inl (Or.inl rfl)
        · exact Or.inl (Or.inr (Or.inl rfl))
      · exact Or.inr ⟨e', he', hor⟩

lemma restore_edges_WF {g : PGraph} (h : g.WF) {l : List (ℕ × ℕ)}
    (hl : ∀ e ∈ l, e.1 ≠ e.2) : (restore_edges g l).WF := by
  unfold restore_edges
  induction l generalizing g with
  | nil => simpa using h
  | cons e tl ih =>
    rw [List.foldl_cons]
    exact ih (add_edge_WF h (hl e (by simp))) (fun x hx => hl x (by simp [hx]))

lemma restore_edges_Inv {rc : RunCtx} {g : PGraph} (hInv : Inv rc g)
    {l : List (ℕ × ℕ)} (hl : ∀ e ∈ l, e.1 ≠ e.2) : Inv rc (restore_edges g l) := by
  obtain ⟨h1, h2, h3⟩ := hInv
  refine ⟨?_, ?_, restore_edges_WF h3 hl⟩
  · intro x hx
    exact mem_restore_edges.mpr (Or.inl (h1 x hx))
  · intro x hx
    exact mem_restore_nodes.mpr (Or.inl (h2 x hx))

lemma remove_edges_from_Inv {rc : RunCtx} {g : PGraph} (hInv : Inv rc g)
    {l : List (ℕ × ℕ)} (hl : ∀ e ∈ l, normPair e.1 e.2 ∉ rc.found_links) :
    Inv rc (remove_edges_from g l) := by
  obtain ⟨h1, h2, h3⟩ := hInv
  rw [remove_edges_from_spec]
  refine ⟨?_, h2, ?_⟩
  · intro x hx
    simp only [Finset.mem_sdiff, List.mem_toFinset, List.mem_map]
    refine ⟨h1 x hx, ?_⟩
    rintro ⟨e, he, heq⟩
    exact hl e he (heq ▸ hx)
  · intro e he
    exact h3 e (Finset.mem_sdiff.mp he).1

/-- In the removal branch of `check_chunk` (all attribute bundles
removable), no chunk edge is a found link and no endpoint pair is equal. -/
lemma removable_not_link {rc : RunCtx} {echunk : List (ℕ × ℕ)}
    (hall : ((echunk.map (dataOf rc)).map removableB).all (fun b => b) = true) :
    ∀ e ∈ echunk, normPair e.1 e.2 ∉ rc.found_links := by
  intro e he hmem
  have h := List.all_eq_true.mp hall (removableB (dataOf rc e))
    (by
      simp only [List.map_map, List.mem_map]
      exact ⟨e, he, rfl⟩)
  simp only [removableB, dataOf, Bool.and_eq_true, Bool.not_eq_true'] at h
  exact absurd hmem (by simpa using h.2)

lemma reduceAll_Inv {rc : RunCtx} {g ex : PGraph} (hrc : RCok rc) (hInv : Inv rc g)
    (hred : reduceAll rc g = .ok ex) : Inv rc ex := by
  unfold reduceAll at hred
  split at hred
  · exact absurd hred (by simp)
  · rename_i ex1 h1
    split at hred
    · exact absurd hred (by simp)
    · rename_i ex2 h2
      exact main_Inv hrc (cycle_Inv hrc (reachable_Inv hrc hInv h1) h2) hred

lemma check_chunk_Inv {rc : RunCtx} {snap : Snapshots} {echunk : List (ℕ × ℕ)}
    {g : PGraph} {r : Bool × PGraph}
    (hrc : RCok rc) (hInv : Inv rc g)
    (hnorm : ∀ e ∈ echunk, e.1 < e.2)
    (h : check_chunk rc snap echunk (echunk.map (dataOf rc)) g = .ok r) :
    Inv rc r.2 := by
  unfold check_chunk at h
  split at h
  · split at h <;> (injection h with h; subst h; exact hInv)
  · rename_i hall
    rw [not_not] at hall
    have hnl : ∀ e ∈ echunk, normPair e.1 e.2 ∉ rc.found_links := removable_not_link hall
    have hne : ∀ e ∈ echunk, e.1 ≠ e.2 := fun e he => by
      have := hnorm e he
      omega
    have hInv1 : Inv rc (remove_edges_from g echunk) := remove_edges_from_Inv hInv hnl
    split at h
    · exact absurd h (by simp)
    · rename_i ex hred
      have hInvEx : Inv rc ex := reduceAll_Inv hrc hInv1 hred
      split at h
      · injection h with h
        subst h
        exact restore_edges_Inv hInv1 hne
      · split at h
        · injection h with h
          subst h
          exact restore_edges_Inv hInv1 hne
        · injection h with h
          subst h
          exact hInvEx

lemma collect_spec (h : PGraph) (f : (ℕ × ℕ) → EdgeData) :
    ∀ (es : List (ℕ × ℕ)) (size : ℕ),
      (collect h size es (es.map f)).2.1 = (collect h size es (es.map f)).1.map f ∧
      (collect h size es (es.map f)).2.2.2 = (collect h size es (es.map f)).2.2.1.map f ∧
      (∀ e ∈ (collect h size es (es.map f)).1, e ∈ es) ∧
      (∀ e ∈ (collect h size es (es.map f)).2.2.1, e ∈ es) := by
  intro es
  induction es with
  | nil =>
    intro size
    cases size <;> simp [collect]
  | cons e tl ih =>
    intro size
    cases size with
    | zero => simp [collect]
    | succ size =>
      rw [List.map_cons]
      by_cases hp : present h e
      · rw [show collect h (size + 1) (e :: tl) (f e :: tl.map f)
            = ((e :: (collect h size tl (tl.map f)).1,
                f e :: (collect h size tl (tl.map f)).2.1,
                (collect h size tl (tl.map f)).2.2.1,
                (collect h size tl (tl.map f)).2.2.2)) from by
          rw [collect]
          simp [hp]]
        obtain ⟨ih1, ih2, ih3, ih4⟩ := ih size
        refine ⟨by simp [ih1], by simp [ih2], ?_, ?_⟩
        · intro x hx
          rcases List.mem_cons.mp hx with rfl | hx
          · simp
          · simp [ih3 x hx]
        · intro x hx
          simp [ih4 x hx]
      · rw [show collect h (size + 1) (e :: tl) (f e :: tl.map f)
            = collect h (size + 1) tl (tl.map f) from by
          rw [collect]
          simp [hp]]
        obtain ⟨ih1, ih2, ih3, ih4⟩ := ih (size + 1)
        exact ⟨ih1, ih2, fun x hx => by simp [ih3 x hx], fun x hx => by simp [ih4 x hx]⟩

lemma zip_map_filter (f : (ℕ × ℕ) → EdgeData) (pred : (ℕ × ℕ) × EdgeData → Bool) :
    ∀ (l : List (ℕ × ℕ)),
      ((l.zip (l.map f)).filter pred).map (fun pd => pd.2)
        = (((l.zip (l.map f)).filter pred).map (fun pd => pd.1)).map f ∧
      ∀ e ∈ ((l.zip (l.map f)).filter pred).map (fun pd => pd.1), e ∈ l := by
  intro l
  induction l with
  | nil => simp
  | cons a tl ih =>
    simp only [List.map_cons, List.zip_cons_cons, List.filter_cons]
    by_cases hp : pred (a, f a)
    · simp only [hp, if_pos, List.map_cons]
      refine ⟨by simp [ih.1], ?_⟩
      intro e he
      rcases List.mem_cons.mp he with rfl | he
      · simp
      · simp [ih.2 e he]
    · simp only [hp]
      refine ⟨by simp [ih.1], ?_⟩
      intro e he
      simp [ih.2 e he]

/-- Invariant preservation of `chunk_process` and `sweep_chunks`, jointly by
induction on the fuel. -/
lemma phase_Inv {rc : RunCtx} {snap : Snapshots} (hrc : RCok rc) : ∀ fuel : ℕ,
    (∀ (echunk : List (ℕ × ℕ)) (size : ℕ) (g : PGraph) (r : Bool × PGraph),
      (∀ e ∈ echunk, e.1 < e.2) → Inv rc g →
      chunk_process rc snap fuel echunk (echunk.map (dataOf rc)) size g = .ok r →
      Inv rc r.2) ∧
    (∀ (stale : PGraph) (size2 : ℕ) (echunk : List (ℕ × ℕ)) (g : PGraph)
      (r : Bool × PGraph),
      (∀ e ∈ echunk, e.1 < e.2) → Inv rc g →
      sweep_chunks rc snap fuel stale size2 echunk (echunk.map (dataOf rc)) g = .ok r →
      Inv rc r.2) := by
  intro fuel
  induction fuel with
  | zero =>
    constructor
    · intro echunk size g r _ hInv h
      rw [chunk_process] at h
      injection h with h
      subst h
      exact hInv
    · intro stale size2 echunk g r _ hInv h
      rw [sweep_chunks] at h
      injection h with h
      subst h
      exact hInv
  | succ fuel ih =>
    constructor
    · intro echunk size g r hnorm hInv h
      rw [chunk_process] at h
      split at h
      · exact absurd h (by simp)
      · rename_i r1 hcc
        have hInv1 : Inv rc r1.2 := check_chunk_Inv hrc hInv hnorm hcc
        split at h
        · injection h with h
          subst h
          exact hInv1
        · split at h
          · injection h with h
            subst h
            exact hInv1
          · exact ih.2 g _ echunk r1.2 r hnorm hInv1 h
    · intro stale size2 echunk g r hnorm hInv h
      rw [sweep_chunks] at h
      split at h
      · injection h with h
        subst h
        exact hInv
      · obtain ⟨c1, c2, c3, c4⟩ := collect_spec stale (dataOf rc) echunk size2
        split at h
        · exact absurd h (by simp)
        · rename_i r1 hcp
          have hnorm1 : ∀ e ∈ (collect stale size2 echunk (echunk.map (dataOf rc))).1,
              e.1 < e.2 := fun e he => hnorm e (c3 e he)
          have hnorm2 : ∀ e ∈ (collect stale size2 echunk (echunk.map (dataOf rc))).2.2.1,
              e.1 < e.2 := fun e he => hnorm e (c4 e he)
          rw [c1] at hcp
          have hInv1 : Inv rc r1.2 := (ih.1) _ size2 g r1 hnorm1 hInv hcp
          split at h
          · rw [c2] at h
            exact ih.2 stale size2 _ r1.2 r hnorm2 hInv1 h
          · obtain ⟨z1, z2⟩ := zip_map_filter (dataOf rc)
              (fun pd => present stale pd.1)
              (collect stale size2 echunk (echunk.map (dataOf rc))).2.2.1
            split at h
            · exact absurd h (by simp)
            · rename_i r2 hcc2
              rw [c2, z1] at hcc2
              have hnorm3 : ∀ e ∈ ((((collect stale size2 echunk
                  (echunk.map (dataOf rc))).2.2.1.zip
                    ((collect stale size2 echunk
                      (echunk.map (dataOf rc))).2.2.1.map (dataOf rc))).filter
                  (fun pd => present stale pd.1)).map (fun pd => pd.1)), e.1 < e.2 :=
                fun e he => hnorm2 e (z2 e he)
              have hInv2 : Inv rc r2.2 := check_chunk_Inv hrc hInv1 hnorm3 hcc2
              split at h
              · injection h with h
                subst h
                exact hInv2
              · rw [c2] at h
                exact ih.2 stale size2 _ r2.2 r hnorm2 hInv2 h

lemma main_loop_Inv {rc : RunCtx} {snap : Snapshots} (hrc : RCok rc) :
    ∀ (fuel : ℕ) (edges : List (ℕ × ℕ)) (size : ℕ) (g g' : PGraph),
      (∀ e ∈ edges, e.1 < e.2) → Inv rc g →
      main_loop rc snap fuel edges (edges.map (dataOf rc)) size g = .ok g' →
      Inv rc g' := by
  intro fuel
  induction fuel with
  | zero =>
    intro edges size g g' _ hInv h
    rw [main_loop] at h
    injection h with h
    subst h
    exact hInv
  | succ fuel ih =>
    intro edges size g g' hnorm hInv h
    rw [main_loop] at h
    split at h
    · injection h with h
      subst h
      exact hInv
    · obtain ⟨c1, c2, c3, c4⟩ := collect_spec g (dataOf rc) edges size
      split at h
      · exact absurd h (by simp)
      · rename_i r hcp
        rw [c1] at hcp
        have hInv1 : Inv rc r.2 :=
          (phase_Inv hrc fuel).1 _ size g r (fun e he => hnorm e (c3 e he)) hInv hcp
        rw [c2] at h
        exact ih _ size r.2 g' (fun e he => hnorm e (c4 e he)) hInv1 h

lemma final_sweep_Inv {rc : RunCtx} {snap : Snapshots} {g : PGraph}
    (hInv : Inv rc g) : Inv rc (final_sweep rc snap g) := by
  unfold final_sweep
  generalize sortedEdges rc g = l
  induction l generalizing g with
  | nil => simpa using hInv
  | cons e tl ih =>
    rw [List.foldl_cons]
    apply ih
    by_cases hp : present g e
    · by_cases hfp : (dataOf rc e).found_path
      · simpa [hp, hfp] using hInv
      · simp only [hp, hfp, not_true, if_neg, Bool.false_eq_true, if_false, not_false_iff,
          if_true]
        have hne : e.1 ≠ e.2 := by
          have hw := hInv.2.2 (normPair e.1 e.2) (by simpa [present] using hp)
          rcases normPair_fst_cases e.1 e.2 with ⟨h1, h2⟩ | ⟨h1, h2⟩ <;> omega
        have hnotlink : normPair e.1 e.2 ∉ rc.found_links := by
          intro hmem
          simp only [dataOf] at hfp
          exact hfp (by simpa using hmem)
        have hInv1 : Inv rc (remove_edge g e) := by
          obtain ⟨h1, h2, h3⟩ := hInv
          refine ⟨?_, h2, remove_edge_WF h3 e⟩
          intro l hl
          refine Finset.mem_erase.mpr ⟨?_, h1 l hl⟩
          intro heq
          exact hnotlink (heq ▸ hl)
        by_cases hcon : check_constraints rc snap (remove_edge g e)
        · simpa [hcon] using hInv1
        · simp only [hcon, Bool.false_eq_true, if_false]
          have hres := restore_edges_Inv (l := [e]) hInv1 (by
            intro x hx
            simp only [List.mem_singleton] at hx
            subst hx
            exact hne)
          simpa [restore_edges] using hres
    · simpa [hp] using hInv

lemma mem_sortedEdges {rc : RunCtx} {g : PGraph} {e : ℕ × ℕ} :
    e ∈ sortedEdges rc g ↔ e ∈ g.edges := by
  unfold sortedEdges edgeList
  rw [(List.perm_insertionSort _ _).mem_iff, mem_sortPairList]
  exact Iff.rfl

lemma argminList_lt_length : ∀ (l : List ℚ), l ≠ [] → argminList l < l.length := by
  intro l
  induction l with
  | nil => intro h; exact absurd rfl h
  | cons x tl ih =>
    intro _
    cases tl with
    | nil => simp [argminList]
    | cons y tl' =>
      have h := ih (by simp)
      rw [argminList]
      split
      · simpa using Nat.succ_lt_succ h
      · simp

lemma find_ok_mem {cfg : Config} {p : List ℕ}
    (h : find_optimal_path cfg = .ok p) :
    p ∈ candidate_paths cfg := by
  unfold find_optimal_path at h
  split at h
  · exact absurd h (by simp)
  · rename_i hne
    injection h with h
    subst h
    have hnil : candidate_paths cfg ≠ [] := by
      intro hcon
      rw [hcon] at hne
      simp at hne
    have hlt : argminList ((candidate_paths cfg).map (pathRecipSum cfg))
        < (candidate_paths cfg).length := by
      have := argminList_lt_length ((candidate_paths cfg).map (pathRecipSum cfg))
        (by simpa using hnil)
      simpa using this
    rw [List.getD_eq_getElem _ _ hlt]
    exact List.getElem_mem hlt

lemma find_ok_st {cfg : Config} {p : List ℕ}
    (h : find_optimal_path cfg = .ok p) : cfg.source ≠ cfg.target := by
  intro hst
  unfold find_optimal_path candidate_paths all_simple_paths at h
  rw [spAux_nil_of_mem _ _ _ (by simp [hst])] at h
  simp at h

/-- Shape of the recorded found path: it starts at the source, ends at the
target, is duplicate-free and chain-adjacent in the initial graph. -/
lemma find_ok_shape {cfg : Config} {p : List ℕ}
    (h : find_optimal_path cfg = .ok p) :
    ∃ q, p = cfg.source :: q ∧ q ≠ [] ∧ q.getLast? = some cfg.target ∧ p.Nodup ∧
      List.Chain' (fun a b =>
        normPair a b ∈ (make_graph cfg.m cfg.minScoreThreshold cfg.N).toP.edges) p := by
  have hmem := find_ok_mem h
  have hst := find_ok_st h
  unfold candidate_paths all_simple_paths at hmem
  obtain ⟨q, rfl, hq1, hq2, hq3, hq5⟩ :=
    spAux_sound _ _ _ _ hmem (by simp) (by simpa using Ne.symm hst)
  exact ⟨q, by simp, hq1, hq2, by simpa using hq3, by simpa using hq5⟩

lemma chain'_mem_nodes {g : PGraph} (hWF : g.WF) :
    ∀ {p : List ℕ}, List.Chain' (fun a b => normPair a b ∈ g.edges) p →
      2 ≤ p.length → ∀ x ∈ p, x ∈ g.nodes := by
  intro p
  induction p with
  | nil => simp
  | cons a tl ih =>
    intro hch hlen x hx
    cases tl with
    | nil => simp at hlen
    | cons b tl' =>
      rw [List.chain'_cons] at hch
      have hab := mem_nodes_of_edge hWF hch.1
      rcases List.mem_cons.mp hx with rfl | hx
      · exact hab.1
      · cases tl' with
        | nil =>
          rcases List.mem_singleton.mp hx with rfl
          exact hab.2
        | cons c tl'' =>
          exact ih hch.2 (by simp) x hx

/-- After a successful `find_optimal_path`, the found links are normalized
edges of the initial graph with endpoints on the found path, and the
initial graph satisfies the pipeline invariant. -/
lemma find_ok_ctx {cfg : Config} {p : List ℕ}
    (h : find_optimal_path cfg = .ok p) :
    RCok (mk_rc cfg p) ∧ Inv (mk_rc cfg p) (generate_initial_graph (mk_rc cfg p)) := by
  obtain ⟨q, hpshape, hq1, _, hnd, hch⟩ := find_ok_shape h
  have hg0 : generate_initial_graph (mk_rc cfg p)
      = (make_graph cfg.m cfg.minScoreThreshold cfg.N).toP := rfl
  have hWF : (generate_initial_graph (mk_rc cfg p)).WF := initial_WF _
  rw [hg0] at hWF
  have hlinks : ∀ l ∈ linksOfPath p,
      l ∈ (make_graph cfg.m cfg.minScoreThreshold cfg.N).toP.edges ∧
      l.1 ∈ p ∧ l.2 ∈ p ∧ l.1 < l.2 := by
    intro l hl
    unfold linksOfPath at hl
    obtain ⟨ab, hab, rfl⟩ := List.mem_map.mp hl
    have hedge := chain'_zip_tail hch ab hab
    have hmemab := List.of_mem_zip hab
    have ha : ab.1 ∈ p := hmemab.1
    have hb : ab.2 ∈ p := List.mem_of_mem_tail hmemab.2
    have hw := hWF _ hedge
    refine ⟨hedge, ?_, ?_, hw.2.2⟩
    · rcases normPair_fst_cases ab.1 ab.2 with ⟨h1, _⟩ | ⟨h1, _⟩
      · rw [h1]; exact ha
      · rw [h1]; exact hb
    · rcases normPair_fst_cases ab.1 ab.2 with ⟨_, h2⟩ | ⟨_, h2⟩
      · rw [h2]; exact hb
      · rw [h2]; exact ha
  constructor
  · intro l hl
    have := hlinks l hl
    exact ⟨this.2.1, this.2.2.1, this.2.2.2⟩
  · refine ⟨fun l hl => (hlinks l hl).1, ?_, hWF⟩
    intro x hx
    rw [hg0]
    refine chain'_mem_nodes hWF hch ?_ x hx
    rw [hpshape]
    have := List.length_pos.mpr hq1
    simp only [List.length_cons]
    omega

/-- Core of claim C5: every found link is an edge of the graph returned by
`build_map`. -/
lemma build_map_links_final {cfg : Config} {tr : Trace}
    (h : build_map_trace cfg = .ok tr) :
    ∀ l ∈ tr.rc.found_links, l ∈ tr.final.edges := by
  unfold build_map_trace at h
  split at h
  · exact absurd h (by simp)
  · rename_i path hfind
    obtain ⟨hrc, hInv0⟩ := find_ok_ctx hfind
    split at h
    · exact absurd h (by simp)
    · rename_i ex hred
      have hInvEx : Inv (mk_rc cfg path) ex := reduceAll_Inv hrc hInv0 hred
      split at h
      · exact absurd h (by simp)
      · split at h
        · exact absurd h (by simp)
        · rename_i gchunk hloop
          have hnorm : ∀ e ∈ initial_order (mk_rc cfg path), e.1 < e.2 := by
            intro e he
            rw [initial_order, mem_sortedEdges] at he
            exact ((initial_WF (mk_rc cfg path)) e he).2.2
          have hInvChunk : Inv (mk_rc cfg path) gchunk :=
            main_loop_Inv hrc _ _ _ _ _ hnorm hInvEx hloop
          have hInvSwept : Inv (mk_rc cfg path)
              (final_sweep (mk_rc cfg path) (snap_of (mk_rc cfg path)) gchunk) :=
            final_sweep_Inv hInvChunk
          split at h
          · exact absurd h (by simp)
          · rename_i final hmain
            have hInvFinal : Inv (mk_rc cfg path) final := main_Inv hrc hInvSwept hmain
            injection h with h
            subst h
            exact fun l hl => hInvFinal.1 l hl

lemma restore_remove_cancel {g : PGraph} (hWF : g.WF) {l : List (ℕ × ℕ)}
    (hpres : ∀ e ∈ l, e ∈ g.edges) :
    restore_edges (remove_edges_from g l) l = g := by
  have hnorm : ∀ e ∈ l, normPair e.1 e.2 = e := fun e he =>
    normPair_eq_self ((hWF e (hpres e he)).2.2)
  cases g with
  | mk nodes edges =>
    rw [remove_edges_from_spec]
    have hn : (restore_edges ⟨nodes,
        edges \ (l.map (fun e => normPair e.1 e.2)).toFinset⟩ l).nodes = nodes := by
      ext x
      rw [mem_restore_nodes]
      constructor
      · rintro (hx | ⟨e, he, hor⟩)
        · exact hx
        · have hw := hWF e (hpres e he)
          rcases hor with rfl | rfl
          · exact hw.1
          · exact hw.2.1
      · exact Or.inl
    have he : (restore_edges ⟨nodes,
        edges \ (l.map (fun e => normPair e.1 e.2)).toFinset⟩ l).edges = edges := by
      ext x
      rw [mem_restore_edges]
      simp only [Finset.mem_sdiff, List.mem_toFinset, List.mem_map]
      constructor
      · rintro (⟨hx, _⟩ | ⟨e, he, rfl⟩)
        · exact hx
        · rw [hnorm e he]
          exact hpres e he
      · intro hx
        by_cases hmem : ∃ e ∈ l, normPair e.1 e.2 = x
        · exact Or.inr hmem
        · exact Or.inl ⟨hx, hmem⟩
    cases hre : restore_edges ⟨nodes,
        edges \ (l.map (fun e => normPair e.1 e.2)).toFinset⟩ l with
    | mk n2 e2 =>
      rw [hre] at hn he
      simp only at hn he
      rw [hn, he]

/-- Claim C6, proved below: rejection leaves the graph unchanged and
acceptance of a removable chunk installs the reduction of the graph minus
the chunk. -/
lemma check_chunk_cases {rc : RunCtx} {snap : Snapshots} {echunk : List (ℕ × ℕ)}
    {g : PGraph} (hWF : g.WF) (hpres : ∀ e ∈ echunk, e ∈ g.edges) :
    (∀ g', check_chunk rc snap echunk (echunk.map (dataOf rc)) g = .ok (false, g') →
      g' = g) ∧
    (∀ g', check_chunk rc snap echunk (echunk.map (dataOf rc)) g = .ok (true, g') →
      (((echunk.map (dataOf rc)).map removableB).any (fun b => b) = false ∧ g' = g) ∨
      (((echunk.map (dataOf rc)).map removableB).all (fun b => b) = true ∧
        reduceAll rc (remove_edges_from g echunk) = .ok g')) := by
  constructor
  · intro g' h
    unfold check_chunk at h
    split at h
    · split at h
      · exact absurd h (by simp)
      · injection h with h
        rw [Prod.mk.injEq] at h
        exact h.2.symm
    · split at h
      · exact absurd h (by simp)
      · split at h
        · injection h with h
          rw [Prod.mk.injEq] at h
          rw [← h.2]
          exact restore_remove_cancel hWF hpres
        · split at h
          · injection h with h
            rw [Prod.mk.injEq] at h
            rw [← h.2]
            exact restore_remove_cancel hWF hpres
          · exact absurd h (by simp)
  · intro g' h
    unfold check_chunk at h
    split at h
    · split at h
      · rename_i hany
        injection h with h
        rw [Prod.mk.injEq] at h
        exact Or.inl ⟨by simpa using hany, h.2.symm⟩
      · exact absurd h (by simp)
    · rename_i hall
      rw [not_not] at hall
      split at h
      · exact absurd h (by simp)
      · rename_i ex hred
        split at h
        · exact absurd h (by simp)
        · split at h
          · exact absurd h (by simp)
          · injection h with h
            rw [Prod.mk.injEq] at h
            rw [← h.2]
            exact Or.inr ⟨hall, hred⟩

lemma induced_edge_or_node {g : PGraph} {S : Finset ℕ} {e : ℕ × ℕ}
    (hpres : e ∈ g.edges) :
    e ∈ (induced g S).edges ∨ e.1 ∉ (induced g S).nodes ∨ e.2 ∉ (induced g S).nodes := by
  by_cases h1 : e.1 ∈ S
  · by_cases h2 : e.2 ∈ S
    · exact Or.inl (by simp [induced, Finset.mem_filter, hpres, h1, h2])
    · exact Or.inr (Or.inr (by simp [induced, h2]))
  · exact Or.inr (Or.inl (by simp [induced, h1]))

lemma induced_nodes_subset (g : PGraph) (S : Finset ℕ) :
    (induced g S).nodes ⊆ g.nodes := by
  intro x hx
  exact (Finset.mem_inter.mp hx).1

lemma reduceAll_edge_or_node {rc : RunCtx} {g ex : PGraph} {e : ℕ × ℕ}
    (hred : reduceAll rc g = .ok ex) (hpres : e ∈ g.edges) :
    e ∈ ex.edges ∨ e.1 ∉ ex.nodes ∨ e.2 ∉ ex.nodes := by
  unfold reduceAll at hred
  split at hred
  · exact absurd hred (by simp)
  · rename_i ex1 h1
    split at hred
    · exact absurd hred (by simp)
    · rename_i ex2 h2
      obtain ⟨S1, rfl, _⟩ := reachable_ok_cases h1
      obtain ⟨S2, rfl, _⟩ := cycle_ok_cases h2
      obtain ⟨S3, rfl, _⟩ := main_ok_cases hred
      rcases induced_edge_or_node (S := S1) hpres with h | h
      · rcases induced_edge_or_node (S := S2) h with h' | h'
        · exact induced_edge_or_node h'
        · refine Or.inr ?_
          rcases h' with h' | h'
          · exact Or.inl (fun hc => h' (induced_nodes_subset _ _ hc))
          · exact Or.inr (fun hc => h' (induced_nodes_subset _ _ hc))
      · refine Or.inr ?_
        rcases h with h | h
        · exact Or.inl (fun hc =>
            h (induced_nodes_subset _ _ (induced_nodes_subset _ _ hc)))
        · exact Or.inr (fun hc =>
            h (induced_nodes_subset _ _ (induced_nodes_subset _ _ hc)))

lemma normPair_le (a b : ℕ) : (normPair a b).1 ≤ (normPair a b).2 := by
  unfold normPair
  split <;> omega

lemma normPair_idem (a b : ℕ) :
    normPair (normPair a b).1 (normPair a b).2 = normPair a b := by
  rw [show normPair (normPair a b).1 (normPair a b).2
      = if (normPair a b).1 ≤ (normPair a b).2
        then ((normPair a b).1, (normPair a b).2) else ((normPair a b).2, (normPair a b).1)
      from rfl]
  rw [if_pos (normPair_le a b)]

lemma dataOf_norm (rc : RunCtx) (a b : ℕ) :
    dataOf rc (normPair a b) = dataOf rc (a, b) := by
  unfold dataOf scoreOf
  rw [normPair_idem]

/-- Score-1.0 edges are never part of a removed chunk: an edge of score 1
present before a `check_chunk` call (with the attribute bundles the
pipeline threads) is still present afterwards, unless the subgraph
reduction of an accepted removal dropped one of its endpoints. -/
lemma check_chunk_keeps_score_one {rc : RunCtx} {snap : Snapshots}
    {echunk : List (ℕ × ℕ)} {g : PGraph} {r : Bool × PGraph} {e : ℕ × ℕ}
    (h : check_chunk rc snap echunk (echunk.map (dataOf rc)) g = .ok r)
    (hsc : (dataOf rc e).score = 1) (hpres : e ∈ g.edges) :
    e ∈ r.2.edges ∨ e.1 ∉ r.2.nodes ∨ e.2 ∉ r.2.nodes := by
  unfold check_chunk at h
  split at h
  · split at h <;> (injection h with h; subst h; exact Or.inl hpres)
  · rename_i hall
    rw [not_not] at hall
    have hkeep : e ∈ (remove_edges_from g echunk).edges := by
      rw [remove_edges_from_spec]
      rw [Finset.mem_sdiff]
      refine ⟨hpres, ?_⟩
      simp only [List.mem_toFinset, List.mem_map]
      rintro ⟨c, hc, hce⟩
      have hrem := List.all_eq_true.mp hall (removableB (dataOf rc c))
        (by
          simp only [List.map_map, List.mem_map]
          exact ⟨c, hc, rfl⟩)
      simp only [removableB, Bool.and_eq_true, decide_eq_true_eq] at hrem
      have hdc : dataOf rc c = dataOf rc e := by
        have h1 : dataOf rc c = dataOf rc (c.1, c.2) := by
          rw [Prod.mk.eta]
        rw [h1, ← dataOf_norm, hce]
      rw [hdc, hsc] at hrem
      exact absurd hrem.1 (by norm_num)
    split at h
    · exact absurd h (by simp)
    · rename_i ex hred
      split at h
      · injection h with h
        subst h
        exact Or.inl (mem_restore_edges.mpr (Or.inl hkeep))
      · split at h
        · injection h with h
          subst h
          exact Or.inl (mem_restore_edges.mpr (Or.inl hkeep))
        · injection h with h
          subst h
          exact reduceAll_edge_or_node hred hkeep

lemma make_graphP_WF (m : ℕ → ℕ → ℚ) (τ : ℚ) (N : ℕ) : (make_graph m τ N).toP.WF := by
  intro e he
  rw [mem_toP_edges] at he
  obtain ⟨s, hs⟩ := he
  rw [make_graph_edata, mem_qualData] at hs
  have hcomb : e.1 < e.2 ∧ e.2 < N := mem_combos.mp hs.1
  have hn : (make_graph m τ N).toP.nodes = Finset.range N := make_graph_nodes m τ N
  rw [hn]
  exact ⟨Finset.mem_range.mpr (by omega), Finset.mem_range.mpr (by omega), hcomb.1⟩

lemma argminList_le : ∀ (l : List ℚ) (i : ℕ), i < l.length →
    l.getD (argminList l) 0 ≤ l.getD i 0 := by
  intro l
  induction l with
  | nil => intro i hi; simp at hi
  | cons x tl ih =>
    intro i hi
    cases tl with
    | nil =>
      cases i with
      | zero => simp [argminList]
      | succ k => simp at hi
    | cons y tl' =>
      rw [argminList]
      split
      · rename_i hlt
        cases i with
        | zero =>
          simp only [List.getD_cons_succ, List.getD_cons_zero]
          exact le_of_lt hlt
        | succ k =>
          simp only [List.getD_cons_succ]
          exact ih k (by simpa using hi)
      · rename_i hge
        rw [not_lt] at hge
        cases i with
        | zero => simp
        | succ k =>
          simp only [List.getD_cons_succ, List.getD_cons_zero]
          exact hge.trans (ih k (by simpa using hi))

lemma argminList_first : ∀ (l : List ℚ) (j : ℕ), j < argminList l →
    l.getD (argminList l) 0 < l.getD j 0 := by
  intro l
  induction l with
  | nil => intro j hj; simp [argminList] at hj
  | cons x tl ih =>
    intro j hj
    cases tl with
    | nil => simp [argminList] at hj
    | cons y tl' =>
      rw [argminList] at hj ⊢
      split
      · rename_i hlt
        rw [if_pos hlt] at hj
        cases j with
        | zero =>
          simp only [List.getD_cons_succ, List.getD_cons_zero]
          exact hlt
        | succ k =>
          simp only [List.getD_cons_succ]
          exact ih k (by omega)
      · rename_i hge
        rw [if_neg hge] at hj
        omega

lemma build_map_rc {cfg : Config} {tr : Trace} (h : build_map_trace cfg = .ok tr) :
    ∃ path, find_optimal_path cfg = .ok path ∧ tr.rc = mk_rc cfg path ∧
      tr.snap = snap_of (mk_rc cfg path) ∧
      tr.g0 = generate_initial_graph (mk_rc cfg path) := by
  unfold build_map_trace at h
  split at h
  · exact absurd h (by simp)
  · rename_i path hfind
    refine ⟨path, hfind, ?_⟩
    split at h
    · exact absurd h (by simp)
    · split at h
      · exact absurd h (by simp)
      · split at h
        · exact absurd h (by simp)
        · split at h
          · exact absurd h (by simp)
          · injection h with h
            subst h
            exact ⟨rfl, rfl, rfl⟩

lemma find_ok_eq {cfg : Config} {p : List ℕ} (h : find_optimal_path cfg = .ok p) :
    candidate_paths cfg ≠ [] ∧
    p = (candidate_paths cfg).getD
      (argminList ((candidate_paths cfg).map (pathRecipSum cfg))) [] := by
  unfold find_optimal_path at h
  split at h
  · exact absurd h (by simp)
  · rename_i hne
    injection h with h
    refine ⟨?_, h.symm⟩
    intro hcon
    exact hne (by simp [hcon])

/-- C1: the claim is too strong.  On `cfgC1` the edge `(0, 2)` has score
`1.0`, survives the reductions and the whole chunked phase, yet is absent
from the returned graph: the final sweep only protects `found_path` edges,
not score-`1.0` edges. -/
theorem claim_C1_counterexample :
    okB (build_map_trace cfgC1) = true ∧
    (dataOf (trace_rc cfgC1) (0, 2)).score = 1 ∧
    (0, 2) ∈ trace_red_edges cfgC1 ∧
    (0, 2) ∈ trace_chunk_edges cfgC1 ∧
    (0, 2) ∉ trace_final_edges cfgC1 := by
  with_unfolding_all decide

/-- C1 (amended): during the chunked pruning phase the claim does hold:
whatever chunk `check_chunk` is given, an edge of score `1.0` present in
the current subgraph is still an edge of the result, unless one of its
endpoints was dropped by the subgraph reductions. -/
theorem claim_C1 {rc : RunCtx} {snap : Snapshots} {echunk : List (ℕ × ℕ)}
    {g : PGraph} {r : Bool × PGraph} {e : ℕ × ℕ}
    (h : check_chunk rc snap echunk (echunk.map (dataOf rc)) g = .ok r)
    (hsc : (dataOf rc e).score = 1) (hpres : e ∈ g.edges) :
    e ∈ r.2.edges ∨ e.1 ∉ r.2.nodes ∨ e.2 ∉ r.2.nodes :=
  check_chunk_keeps_score_one h hsc hpres

theorem claim_C1_witness :
    check_chunk rcC1 ⟨∅, ∅⟩ [(0, 1)] ([(0, 1)].map (dataOf rcC1)) gC1
        = .ok (true, gC1) ∧
    (dataOf rcC1 (0, 2)).score = 1 ∧ (0, 2) ∈ gC1.edges ∧
    ((0, 2) ∈ gC1.edges ∨ (0, 2).1 ∉ gC1.nodes ∨ (0, 2).2 ∉ gC1.nodes) := by
  have h1 : check_chunk rcC1 ⟨∅, ∅⟩ [(0, 1)] ([(0, 1)].map (dataOf rcC1)) gC1
      = .ok (true, gC1) := by with_unfolding_all decide
  have h2 : (dataOf rcC1 (0, 2)).score = 1 := by with_unfolding_all decide
  have h3 : (0, 2) ∈ gC1.edges := by with_unfolding_all decide
  exact ⟨h1, h2, h3, claim_C1 h1 h2 h3⟩

/-- C2: the claim is wrong about where the snapshots are captured.  On
`cfgC2` the run succeeds yet `initialCycledNodesSet` differs from the
cycled-node set of the reduced initial graph: lines 301-302 run before the
reduction of lines 304-311. -/
theorem claim_C2_counterexample :
    okB (build_map_trace cfgC2) = true ∧
    trace_snap_nodes cfgC2 ≠
      get_cycled_nodes (trace_rc cfgC2) (trace_red cfgC2) := by
  with_unfolding_all decide

/-- C2 (amended): the snapshots are captured once from the UNREDUCED
initial graph, before the reachable/cycle/main reduction, and are never
reassigned: on every successful run they equal the cycled sets of the
initial graph. -/
theorem claim_C2 (cfg : Config) (h : okB (build_map_trace cfg) = true) :
    trace_snap_nodes cfg =
      get_cycled_nodes (trace_rc cfg) (generate_initial_graph (trace_rc cfg)) ∧
    trace_snap_edges cfg =
      get_cycled_edges (trace_rc cfg) (generate_initial_graph (trace_rc cfg)) := by
  cases htr : build_map_trace cfg with
  | error e => rw [htr] at h; simp [okB] at h
  | ok tr =>
    obtain ⟨path, _, hrc, hsnap, _⟩ := build_map_rc htr
    unfold trace_snap_nodes trace_snap_edges trace_rc
    simp only [htr]
    rw [hrc, hsnap]
    exact ⟨rfl, rfl⟩

theorem claim_C2_witness :
    okB (build_map_trace cfgC2) = true ∧
    (trace_snap_nodes cfgC2 =
        get_cycled_nodes (trace_rc cfgC2)
          (generate_initial_graph (trace_rc cfgC2)) ∧
      trace_snap_edges cfgC2 =
        get_cycled_edges (trace_rc cfgC2)
          (generate_initial_graph (trace_rc cfgC2))) := by
  have h1 : okB (build_map_trace cfgC2) = true := by with_unfolding_all decide
  exact ⟨h1, claim_C2 cfgC2 h1⟩

/-- C3: the code does not implement the claimed shape check.  The
constructor only compares the row count and the length of the FIRST row
with `N`, so the ragged matrix `[[1, 0.5], [0.5]]` is accepted for `N = 2`
although it is not `2 × 2`. -/
theorem claim_C3 :
    matrix_check raggedMatrix 2 = .ok () ∧ ¬ IsNxN raggedMatrix 2 := by
  with_unfolding_all decide

/-- C4: the claim is wrong for `make_optimal_path_graph`.  On `cfgC4` the
selected path edge `(0, 1)` is materialized with the raw matrix entry
`0.567`, not its two-decimal rounding `0.57`. -/
theorem claim_C4_counterexample :
    find_optimal_path cfgC4 = .ok [0, 1] ∧
    ((0, 1), (0.567 : ℚ)) ∈ (make_optimal_path_graph (rc_of cfgC4)).edges ∧
    round2 (0.567 : ℚ) = (0.57 : ℚ) ∧ (0.567 : ℚ) ≠ (0.57 : ℚ) := by
  refine ⟨?_, ?_, ?_, ?_⟩ <;> with_unfolding_all decide

/-- C4 (amended): `make_graph` materializes every edge with the rounded
score `round(score, 2)`, while `make_optimal_path_graph` materializes its
edges with the raw matrix entry, unrounded. -/
theorem claim_C4 :
    (∀ (m : ℕ → ℕ → ℚ) (τ : ℚ) (N : ℕ), ∀ p ∈ (make_graph m τ N).edata,
      p.2 = round2 (m p.1.1 p.1.2)) ∧
    (∀ (rc : RunCtx), ∀ q ∈ (make_optimal_path_graph rc).edges,
      q.2 = rc.cfg.m q.1.1 q.1.2) := by
  constructor
  · intro m τ N p hp
    rw [make_graph_edata] at hp
    exact (mem_qualData.mp hp).2.2
  · intro rc q hq
    unfold make_optimal_path_graph at hq
    simp only [List.mem_map] at hq
    obtain ⟨ab, _, rfl⟩ := hq
    rfl

theorem claim_C4_witness :
    ((0, 1), (0.9 : ℚ)) ∈ (make_graph mC1 (0.2 : ℚ) 4).edata ∧
    (0.9 : ℚ) = round2 (mC1 0 1) := by
  have h1 : ((0, 1), (0.9 : ℚ)) ∈ (make_graph mC1 (0.2 : ℚ) 4).edata := by
    with_unfolding_all decide
  exact ⟨h1, claim_C4.1 mC1 0.2 4 ((0, 1), 0.9) h1⟩

/-- C5: on every successful `build_map` run, the recorded `found_links`
are exactly the consecutive (normalized) pairs of the found path, and each
of them is an edge of the returned graph. -/
theorem claim_C5 (cfg : Config) (h : okB (build_map_trace cfg) = true) :
    trace_links cfg = linksOfPath (trace_path cfg) ∧
    ∀ l ∈ trace_links cfg, l ∈ trace_final_edges cfg := by
  cases htr : build_map_trace cfg with
  | error e => rw [htr] at h; simp [okB] at h
  | ok tr =>
    obtain ⟨path, _, hrc, _, _⟩ := build_map_rc htr
    unfold trace_links trace_path trace_final_edges
    simp only [htr]
    refine ⟨?_, build_map_links_final htr⟩
    rw [hrc]
    unfold mk_rc
    rfl

theorem claim_C5_witness :
    okB (build_map_trace cfgC1) = true ∧ (0, 1) ∈ trace_final_edges cfgC1 := by
  have h1 : okB (build_map_trace cfgC1) = true := by with_unfolding_all decide
  have h2 : (0, 1) ∈ trace_links cfgC1 := by with_unfolding_all decide
  exact ⟨h1, (claim_C5 cfgC1 h1).2 (0, 1) h2⟩

/-- C6: `check_chunk` is atomic.  On any rejection (`ok (false, g')`) the
resulting subgraph is the input subgraph (same nodes, edges and, since
attribute bundles are the pure function `dataOf`, same attributes); on
acceptance the result is either the untouched input (all-non-removable
chunk) or the reachable/cycle/main reduction of the graph with the chunk
removed. -/
theorem claim_C6 {rc : RunCtx} {snap : Snapshots} {echunk : List (ℕ × ℕ)}
    {g : PGraph} (hWF : g.WF) (hpres : ∀ e ∈ echunk, e ∈ g.edges) :
    (∀ g', check_chunk rc snap echunk (echunk.map (dataOf rc)) g
        = .ok (false, g') → g' = g) ∧
    (∀ g', check_chunk rc snap echunk (echunk.map (dataOf rc)) g
        = .ok (true, g') →
      (((echunk.map (dataOf rc)).map removableB).any (fun b => b) = false ∧
        g' = g) ∨
      (((echunk.map (dataOf rc)).map removableB).all (fun b => b) = true ∧
        reduceAll rc (remove_edges_from g echunk) = .ok g')) :=
  check_chunk_cases hWF hpres

theorem claim_C6_witness :
    gC6.WF ∧ (∀ e ∈ [((0 : ℕ), (2 : ℕ)), (0, 3)], e ∈ gC6.edges) ∧
    check_chunk rcC6 ⟨∅, ∅⟩ [(0, 2), (0, 3)]
        ([(0, 2), (0, 3)].map (dataOf rcC6)) gC6 = .ok (false, gC6) ∧
    gC6 = gC6 := by
  have hWF : gC6.WF := by
    unfold PGraph.WF
    with_unfolding_all decide
  have hpres : ∀ e ∈ [((0 : ℕ), (2 : ℕ)), (0, 3)], e ∈ gC6.edges := by
    with_unfolding_all decide
  have hcc : check_chunk rcC6 ⟨∅, ∅⟩ [(0, 2), (0, 3)]
      ([(0, 2), (0, 3)].map (dataOf rcC6)) gC6 = .ok (false, gC6) := by
    with_unfolding_all decide
  exact ⟨hWF, hpres, hcc, (claim_C6 hWF hpres).1 gC6 hcc⟩

/-- C7: `find_optimal_path` enumerates exactly the bounded simple
source-target paths of the graph at `minScoreThreshold`, returns a member
of that enumeration whose reciprocal-score sum is minimal, and among the
minimizers returns the first in enumeration order. -/
theorem claim_C7 (cfg : Config) (hst : cfg.source ≠ cfg.target)
    (hc : 1 ≤ cfg.maxOptimalPathLength) (p : List ℕ)
    (h : find_optimal_path cfg = .ok p) :
    (∀ q, q ∈ candidate_paths cfg ↔
      IsBoundedPath (make_graph cfg.m cfg.minScoreThreshold cfg.N).toP
        cfg.source cfg.target cfg.maxOptimalPathLength q) ∧
    p ∈ candidate_paths cfg ∧
    (∀ q ∈ candidate_paths cfg, pathRecipSum cfg p ≤ pathRecipSum cfg q) ∧
    (∃ k, k < (candidate_paths cfg).length ∧
      (candidate_paths cfg).getD k [] = p ∧
      ∀ j, j < k → pathRecipSum cfg p <
        pathRecipSum cfg ((candidate_paths cfg).getD j [])) := by
  obtain ⟨hnil, hpeq⟩ := find_ok_eq h
  have hklt : argminList ((candidate_paths cfg).map (pathRecipSum cfg)) <
      (candidate_paths cfg).length := by
    have := argminList_lt_length ((candidate_paths cfg).map (pathRecipSum cfg))
      (by simpa using hnil)
    simpa using this
  have hsum : ∀ i, i < (candidate_paths cfg).length →
      ((candidate_paths cfg).map (pathRecipSum cfg)).getD i 0 =
        pathRecipSum cfg ((candidate_paths cfg).getD i []) := by
    intro i hi
    rw [List.getD_eq_getElem _ _ (by simpa using hi),
      List.getD_eq_getElem _ _ hi, List.getElem_map]
  refine ⟨fun q => mem_all_simple_paths
      (make_graphP_WF cfg.m cfg.minScoreThreshold cfg.N) hst hc,
    find_ok_mem h, ?_, ?_⟩
  · intro q hq
    obtain ⟨i, hi, hqi⟩ := List.mem_iff_getElem.mp hq
    have hle := argminList_le ((candidate_paths cfg).map (pathRecipSum cfg)) i
      (by simpa using hi)
    rw [hsum _ hklt, hsum _ hi] at hle
    rw [hpeq]
    calc pathRecipSum cfg ((candidate_paths cfg).getD
          (argminList ((candidate_paths cfg).map (pathRecipSum cfg))) [])
        ≤ pathRecipSum cfg ((candidate_paths cfg).getD i []) := hle
      _ = pathRecipSum cfg q := by rw [List.getD_eq_getElem _ _ hi, hqi]
  · refine ⟨argminList ((candidate_paths cfg).map (pathRecipSum cfg)), hklt,
      hpeq.symm, ?_⟩
    intro j hj
    have hlt := argminList_first ((candidate_paths cfg).map (pathRecipSum cfg))
      j hj
    rw [hsum _ hklt, hsum _ (lt_trans hj hklt)] at hlt
    rw [hpeq]
    exact hlt

theorem claim_C7_witness :
    cfgC7.source ≠ cfgC7.target ∧ 1 ≤ cfgC7.maxOptimalPathLength ∧
    find_optimal_path cfgC7 = .ok [0, 2, 1] ∧
    [0, 3, 1] ∈ candidate_paths cfgC7 ∧
    pathRecipSum cfgC7 [0, 2, 1] ≤ pathRecipSum cfgC7 [0, 3, 1] := by
  have h1 : cfgC7.source ≠ cfgC7.target := by with_unfolding_all decide
  have h2 : (1 : ℕ) ≤ cfgC7.maxOptimalPathLength := by with_unfolding_all decide
  have h3 : find_optimal_path cfgC7 = .ok [0, 2, 1] := by
    with_unfolding_all decide
  have h4 : [0, 3, 1] ∈ candidate_paths cfgC7 := by with_unfolding_all decide
  exact ⟨h1, h2, h3, h4, (claim_C7 cfgC7 h1 h2 [0, 2, 1] h3).2.2.1 [0, 3, 1] h4⟩

/-- C8: `find_optimal_path` fails with `NoPathFound` exactly when the
graph at `minScoreThreshold` has no simple source-target path of at most
`maxOptimalPathLength` edges, and any path it returns is such a path. -/
theorem claim_C8 (cfg : Config) (hst : cfg.source ≠ cfg.target)
    (hc : 1 ≤ cfg.maxOptimalPathLength) :
    (find_optimal_path cfg = .error .noPathFound ↔
      ¬ ∃ p, IsBoundedPath (make_graph cfg.m cfg.minScoreThreshold cfg.N).toP
        cfg.source cfg.target cfg.maxOptimalPathLength p) ∧
    ∀ p, find_optimal_path cfg = .ok p →
      IsBoundedPath (make_graph cfg.m cfg.minScoreThreshold cfg.N).toP
        cfg.source cfg.target cfg.maxOptimalPathLength p := by
  have hWF := make_graphP_WF cfg.m cfg.minScoreThreshold cfg.N
  constructor
  · constructor
    · intro herr hex
      obtain ⟨p0, hp0⟩ := hex
      have hmem : p0 ∈ candidate_paths cfg :=
        (mem_all_simple_paths hWF hst hc).mpr hp0
      unfold find_optimal_path at herr
      split at herr
      · rename_i hemp
        rw [List.isEmpty_iff] at hemp
        rw [hemp] at hmem
        simp at hmem
      · exact absurd herr (by simp)
    · intro hne
      cases hL : (candidate_paths cfg).isEmpty with
      | false =>
        exfalso
        apply hne
        have hnil : candidate_paths cfg ≠ [] := by
          intro hcon
          rw [hcon] at hL
          simp at hL
        obtain ⟨q, hq⟩ := List.exists_mem_of_ne_nil _ hnil
        exact ⟨q, (mem_all_simple_paths hWF hst hc).mp hq⟩
      | true =>
        unfold find_optimal_path
        rw [if_pos hL]
  · intro p hp
    exact (mem_all_simple_paths hWF hst hc).mp (find_ok_mem hp)

theorem claim_C8_witness :
    cfgC8.source ≠ cfgC8.target ∧ 1 ≤ cfgC8.maxOptimalPathLength ∧
    find_optimal_path cfgC8 = .error .noPathFound ∧
    ¬ ∃ p, IsBoundedPath
      (make_graph cfgC8.m cfgC8.minScoreThreshold cfgC8.N).toP
      cfgC8.source cfgC8.target cfgC8.maxOptimalPathLength p := by
  have h1 : cfgC8.source ≠ cfgC8.target := by with_unfolding_all decide
  have h2 : (1 : ℕ) ≤ cfgC8.maxOptimalPathLength := by with_unfolding_all decide
  have h3 : find_optimal_path cfgC8 = .error .noPathFound := by
    with_unfolding_all decide
  exact ⟨h1, h2, h3, (claim_C8 cfgC8 h1 h2).1.mp h3⟩

/-- C9: an empty chunk takes the removal branch of `check_chunk`
(`all([]) = True` in Python): nothing is removed, the reduction is
recomputed, and on acceptance the reduction replaces the current subgraph;
concretely, on `gC9` an accepted empty chunk strictly shrinks the node
set. -/
theorem claim_C9 :
    (∀ (rc : RunCtx) (snap : Snapshots) (g ex : PGraph),
      reduceAll rc g = .ok ex →
      rc.found_path.all (fun x => decide (x ∈ ex.nodes)) = true →
      check_constraints rc snap ex = true →
      check_chunk rc snap [] [] g = .ok (true, ex)) ∧
    (check_chunk rcC9 snapC9 [] [] gC9 = .ok (true, exC9) ∧
      exC9.nodes ⊂ gC9.nodes) := by
  constructor
  · intro rc snap g ex hred hall hcon
    unfold check_chunk
    rw [if_neg (by simp)]
    have h0 : remove_edges_from g ([] : List (ℕ × ℕ)) = g := rfl
    simp only [h0, hred]
    rw [if_neg (by simp [hall]), if_neg (by simp [hcon])]
  · constructor
    · with_unfolding_all decide
    · with_unfolding_all decide

theorem claim_C9_witness :
    check_chunk rcC9 snapC9 [] [] gC9 = .ok (true, exC9) := by
  have hred : reduceAll rcC9 gC9 = .ok exC9 := by with_unfolding_all decide
  have hall : rcC9.found_path.all (fun x => decide (x ∈ exC9.nodes)) = true := by
    with_unfolding_all decide
  have hcon : check_constraints rcC9 snapC9 exC9 = true := by
    with_unfolding_all decide
  exact claim_C9.1 rcC9 snapC9 gC9 exC9 hred hall hcon

/-- C10: `make_graph` equals the single-pass construction that adds each
node once and each qualifying unordered pair once with its rounded score;
the repeated re-insertions of the Python outer loop are idempotent. -/
theorem claim_C10 :
    ∀ (m : ℕ → ℕ → ℚ) (τ : ℚ) (N : ℕ),
      make_graph m τ N = single_pass_graph m τ N :=
  make_graph_eq_single_pass

end PairMap
